import Mathlib

/-!
Verification of the byte-indexed recursive-descent JSON parser
(`src/parser.rs`, the most evolved variant of the `ej` crate).

The input is modelled as a `List Nat` of byte values (Rust `&[u8]`, obtained
from `&str::as_bytes`).  Rust `String` values produced by the parser are
modelled as lists of Unicode code points (`List Nat`), since the parser builds
them with `bytes.iter().map(|x| *x as char).collect::<String>()`, i.e. one
char per byte whose code point equals the byte value.  IEEE 754 doubles are
abstracted as exact rationals (`Rat`); decimal-to-double rounding is not
modelled, which is irrelevant to every property proved here.  Machine `usize`
positions are modelled as `Nat` (all positions stay at most the buffer length,
so wrap-around cannot occur).  A Rust panic (out-of-bounds slice index) is a
distinct outcome `RunOutcome.panic`.  General recursion is embedded with an
explicit fuel parameter; `RunOutcome.fuelOut` marks fuel exhaustion, and it is
proved below that the fuel chosen by the entry point can never run out.
-/

/-- Modelled from the spec: the error structure `{ position, kind }` surfaced
to callers, with `kind` one of `Syntax` / `Number` (section 6 of the spec);
the struct itself lives outside `src/`, only its constructors
`ParseError::syntax(pos)` / `ParseError::number(pos)` are visible as call
sites in `src/parser.rs`.  `synKind` renders the spec's `Syntax`, `numKind`
the spec's `Number`. -/
inductive ErrKind where
  | synKind
  | numKind
deriving DecidableEq, Repr

/-- The positioned parse error: byte offset plus kind. -/
structure ParseError where
  position : Nat
  kind : ErrKind
deriving DecidableEq, Repr

/-- `ParseError::syntax(pos)`. -/
def syntaxErr (p : Nat) : ParseError := ⟨p, .synKind⟩

/-- `ParseError::number(pos)`. -/
def numberErr (p : Nat) : ParseError := ⟨p, .numKind⟩

/-- Outcome of running a fallible parser routine: Rust `Ok`, Rust `Err`,
a Rust panic (out-of-bounds index), or exhaustion of the embedding's fuel. -/
inductive RunOutcome (α : Type) where
  | ok : α → RunOutcome α
  | err : ParseError → RunOutcome α
  | panic : RunOutcome α
  | fuelOut : RunOutcome α
deriving DecidableEq, Repr

/-- `Location(usize, usize)`: a half-open byte span.  `stop` is the Rust
`end()` accessor (`end` is reserved in Lean). -/
structure Location where
  start : Nat
  stop : Nat
deriving DecidableEq, Repr

/-- `enum Number { Integer(i64), Float(f64) }`, with `f64` abstracted as an
exact rational. -/
inductive JNumber where
  | integer : Int → JNumber
  | float : Rat → JNumber
deriving DecidableEq, Repr

/-- The annotated value node: Rust `Annotation<ValueKind>` fused into a single
inductive, each constructor of `ValueKind` carrying its `Location`.  The
`HashMap<String, Value>` of objects is modelled as an association list (see
`hmInsert` for the overwrite semantics); strings and keys are code-point
lists. -/
inductive Value where
  | object : List (List Nat × Value) → Location → Value
  | array : List Value → Location → Value
  | string : List Nat → Location → Value
  | number : JNumber → Location → Value
  | bool : Bool → Location → Value
  | null : Location → Value

/-- The `loc()` accessor of an annotated node. -/
def Value.loc : Value → Location
  | .object _ l => l
  | .array _ l => l
  | .string _ l => l
  | .number _ l => l
  | .bool _ l => l
  | .null l => l

/-- `Json(Vec<Value>)`: the document, an ordered sequence of top-level
nodes.  Modelled from the spec (section 6): the wrapper type itself lives
outside `src/`; `src/parser.rs` builds it as `Json(self.values)`. -/
structure Json where
  values : List Value

/-- `HashMap::insert`: overwrite the value when the key is present, otherwise
add the pair.  (The assoc-list position of a replaced key is irrelevant to any
map observation; lookups agree with Rust's.) -/
def hmInsert : List (List Nat × Value) → List Nat → Value → List (List Nat × Value)
  | [], k, v => [(k, v)]
  | (k', v') :: rest, k, v =>
      if k' = k then (k', v) :: rest else (k', v') :: hmInsert rest k v

/-- `JSON_QUOTE`: the byte of a double quote. -/
def JSON_QUOTE : Nat := 34

/-- `JSON_NUMBER_CHARS`: bytes of the string of number-constituent
characters; the digits, then the minus sign, the letter e and the dot. -/
def JSON_NUMBER_CHARS : List Nat := [48, 49, 50, 51, 52, 53, 54, 55, 56, 57, 45, 101, 46]

/-- `JSON_WHITESPACE_CHARS`: bytes of the whitespace characters
space, line feed, carriage return, tab. -/
def JSON_WHITESPACE_CHARS : List Nat := [32, 10, 13, 9]

/-- `LEN_TRUE`. -/
def LEN_TRUE : Nat := 4
/-- `LEN_FALSE`. -/
def LEN_FALSE : Nat := 5
/-- `LEN_NULL`. -/
def LEN_NULL : Nat := 4

/-- Rust slice `bytes[i..j]`. -/
def sliceBytes (bytes : List Nat) (i j : Nat) : List Nat :=
  (bytes.drop i).take (j - i)

/-- ASCII decimal digit test. -/
def isDigitB (b : Nat) : Bool := decide (48 ≤ b ∧ b ≤ 57)

/-- Leading `+`/`-` sign of a numeric string: returns (is-negative, rest). -/
def splitSign : List Nat → Bool × List Nat
  | 45 :: r => (true, r)
  | 43 :: r => (false, r)
  | s => (false, s)

/-- Longest prefix of decimal digits, and the remainder. -/
def takeDigits : List Nat → List Nat × List Nat
  | b :: r =>
      if isDigitB b then
        let p := takeDigits r
        (b :: p.1, p.2)
      else ([], b :: r)
  | [] => ([], [])

/-- Value of a digit string, most significant first. -/
def digitsVal (ds : List Nat) : Nat := ds.foldl (fun a d => a * 10 + (d - 48)) 0

/-- Modelled from the documented behavior of Rust's
`str::parse::<i64>` (the standard library is not part of `src/`): an optional
sign followed by one or more ASCII digits, whole string consumed, value within
the 64-bit signed range; anything else is `None`. -/
def parseI64 (s : List Nat) : Option Int :=
  let p := splitSign s
  if p.2 ≠ [] ∧ p.2.all isDigitB then
    let v : Int := if p.1 then -(digitsVal p.2 : Int) else (digitsVal p.2 : Int)
    if -(2 ^ 63) ≤ v ∧ v ≤ 2 ^ 63 - 1 then some v else none
  else none

/-- Exponent suffix of a float string (after the `e`/`E`): optional sign then
one or more digits, whole remainder consumed; scales the mantissa. -/
def expPart (m : Rat) (r : List Nat) : Option Rat :=
  let p1 := splitSign r
  let p2 := takeDigits p1.2
  if p2.1 = [] ∨ p2.2 ≠ [] then none
  else some (if p1.1 then m / (10 : Rat) ^ digitsVal p2.1 else m * (10 : Rat) ^ digitsVal p2.1)

/-- Modelled from the documented behavior of Rust's `str::parse::<f64>` (the
standard library is not part of `src/`), restricted to the finite decimal
forms: optional sign, then digits with an optional dot (at least one digit on
one side of the dot), then an optional `e`/`E` exponent with its own optional
sign and mandatory digits.  The special spellings `inf`/`infinity`/`nan`
cannot reach this function (the number scanner admits only digits, `-`, `e`
and `.`), and IEEE rounding/overflow is abstracted away: the exact rational
value of the decimal is returned. -/
def parseF64 (s : List Nat) : Option Rat :=
  let p1 := splitSign s
  let ipr := takeDigits p1.2
  let fpr : List Nat × List Nat :=
    match ipr.2 with
    | 46 :: r => takeDigits r
    | _ => ([], ipr.2)
  if ipr.1 = [] ∧ fpr.1 = [] then none
  else
    let m0 : Rat := ((digitsVal (ipr.1 ++ fpr.1) : Nat) : Rat) / (10 : Rat) ^ fpr.1.length
    let m : Rat := if p1.1 then -m0 else m0
    match fpr.2 with
    | [] => some m
    | 101 :: r => expPart m r
    | 69 :: r => expPart m r
    | _ => none

/-- The loop body of `Parser::skip_whitespace`, structurally recursing on the
suffix of the buffer that starts at the current position `p` (the head of the
suffix is `bytes[p]`, so the Rust bounds check `pos < len` becomes the match
on the suffix). -/
def skipWsGo : List Nat → Nat → Except ParseError Nat
  | [], p => .error (syntaxErr p)
  | b :: rest, p =>
      if b ∈ JSON_WHITESPACE_CHARS then skipWsGo rest (p + 1)
      else .ok p

/-- `Parser::skip_whitespace`: advance past whitespace bytes; `Ok` with the
new position at the first non-whitespace byte, `Err(Syntax)` at the buffer
length when the buffer is exhausted first.  (The position is returned
explicitly; Rust mutates `self.pos`.) -/
def skipWs (bytes : List Nat) (pos : Nat) : Except ParseError Nat :=
  skipWsGo (bytes.drop pos) pos

/-- The `cursor` loop of `Parser::parse_number` on the suffix at the current
position: length of the maximal prefix of number-constituent bytes. -/
def numRunGo : List Nat → Nat
  | [] => 0
  | b :: rest => if b ∈ JSON_NUMBER_CHARS then numRunGo rest + 1 else 0

/-- The maximal run of number-constituent bytes starting at `pos`. -/
def numRun (bytes : List Nat) (pos : Nat) : Nat :=
  numRunGo (bytes.drop pos)

/-- The scan loop of `Parser::parse_string` on the suffix at the position one
past the opening quote: number of content bytes before the next quote byte,
or `none` when no quote remains (`closed` stays false). -/
def quoteScanGo : List Nat → Option Nat
  | [] => none
  | b :: rest =>
      if b = JSON_QUOTE then some 0
      else (quoteScanGo rest).map (· + 1)

/-- Content length of the string starting at `pos` (exclusive of quotes). -/
def quoteScan (bytes : List Nat) (pos : Nat) : Option Nat :=
  quoteScanGo (bytes.drop pos)

/-- `Parser::parse_null`: fixed-length slice compare against `null`.  The
Rust slice expression `self.bytes[i..i + LEN_NULL]` panics when fewer than
`LEN_NULL` bytes remain. -/
def parseNull (bytes : List Nat) (pos : Nat) : RunOutcome (Value × Nat) :=
  if pos + LEN_NULL ≤ bytes.length then
    if sliceBytes bytes pos (pos + LEN_NULL) = [110, 117, 108, 108] then
      .ok (.null ⟨pos, pos + LEN_NULL⟩, pos + LEN_NULL)
    else .err (syntaxErr pos)
  else .panic

/-- `Parser::parse_bool`: slice compare against `true`, then against `false`.
Each Rust slice expression panics when it reaches past the buffer end. -/
def parseBool (bytes : List Nat) (pos : Nat) : RunOutcome (Value × Nat) :=
  if pos + LEN_TRUE ≤ bytes.length then
    if sliceBytes bytes pos (pos + LEN_TRUE) = [116, 114, 117, 101] then
      .ok (.bool true ⟨pos, pos + LEN_TRUE⟩, pos + LEN_TRUE)
    else if pos + LEN_FALSE ≤ bytes.length then
      if sliceBytes bytes pos (pos + LEN_FALSE) = [102, 97, 108, 115, 101] then
        .ok (.bool false ⟨pos, pos + LEN_FALSE⟩, pos + LEN_FALSE)
      else .err (syntaxErr pos)
    else .panic
  else .panic

/-- `Parser::parse_number`: greedily scan the maximal run of
number-constituent bytes, then try the 64-bit integer parse, then the float
parse, else a `Number`-kind error at the scan's start (`self.pos` is only
advanced on success). -/
def parseNumber (bytes : List Nat) (pos : Nat) : RunOutcome (Value × Nat) :=
  match parseI64 (sliceBytes bytes pos (pos + numRun bytes pos)) with
  | some i => .ok (.number (.integer i) ⟨pos, pos + numRun bytes pos⟩, pos + numRun bytes pos)
  | none =>
    match parseF64 (sliceBytes bytes pos (pos + numRun bytes pos)) with
    | some f => .ok (.number (.float f) ⟨pos, pos + numRun bytes pos⟩, pos + numRun bytes pos)
    | none => .err (numberErr pos)

/-- `Parser::parse_string`: skip the byte at `pos` (assumed to be the opening
quote — never checked), scan for the next quote byte; on failure `Syntax` at
`pos + 1` (the advanced `self.pos`), on success the verbatim content bytes
with span from `pos` to one past the closing quote. -/
def parseString (bytes : List Nat) (pos : Nat) : RunOutcome (Value × Nat) :=
  match quoteScan bytes (pos + 1) with
  | none => .err (syntaxErr (pos + 1))
  | some cursor =>
      .ok (.string (sliceBytes bytes (pos + 1) (pos + 1 + cursor)) ⟨pos, pos + 1 + cursor + 1⟩,
           pos + 1 + cursor + 1)

mutual

/-- `Parser::parse_bytes`: skip whitespace (`Syntax` at the buffer end when
exhausted), then dispatch on the next byte: `{` object, `[` array, `"`
string, `-`/digit number, `t`/`f` bool, `n` null, else `Syntax` here. -/
def parseBytes (bytes : List Nat) : Nat → Nat → RunOutcome (Value × Nat)
  | 0, _ => .fuelOut
  | fuel + 1, pos =>
    match skipWs bytes pos with
    | .error e => .err e
    | .ok p =>
      match bytes[p]? with
      | none => .panic
      | some b =>
        if b = 123 then parseObject bytes fuel p
        else if b = 91 then parseArray bytes fuel p
        else if b = 34 then parseString bytes p
        else if b = 45 ∨ (48 ≤ b ∧ b ≤ 57) then parseNumber bytes p
        else if b = 116 ∨ b = 102 then parseBool bytes p
        else if b = 110 then parseNull bytes p
        else .err (syntaxErr p)
termination_by structural fuel _ => fuel

/-- `Parser::parse_array`: consume `[` (never checked), skip whitespace
(`Syntax` at the buffer end when exhausted), return the empty array on `]`,
otherwise run the element loop. -/
def parseArray (bytes : List Nat) : Nat → Nat → RunOutcome (Value × Nat)
  | 0, _ => .fuelOut
  | fuel + 1, pos =>
    match skipWs bytes (pos + 1) with
    | .error e => .err e
    | .ok p2 =>
      match bytes[p2]? with
      | none => .panic
      | some b =>
        if b = 93 then .ok (.array [] ⟨pos, p2 + 1⟩, p2 + 1)
        else arrayLoop bytes fuel pos [] p2
termination_by structural fuel _ => fuel

/-- The `loop` of `Parser::parse_array`: parse one value, then after
whitespace expect `]` (done), `,` (skip whitespace, continue), anything else
`Syntax` there.  `start` is the span start recorded at the `[`; `acc` the
elements parsed so far. -/
def arrayLoop (bytes : List Nat) : Nat → Nat → List Value → Nat → RunOutcome (Value × Nat)
  | 0, _, _, _ => .fuelOut
  | fuel + 1, start, acc, pos =>
    match parseBytes bytes fuel pos with
    | .err e => .err e
    | .panic => .panic
    | .fuelOut => .fuelOut
    | .ok (v, p1) =>
      match skipWs bytes p1 with
      | .error e => .err e
      | .ok p2 =>
        match bytes[p2]? with
        | none => .panic
        | some b =>
          if b = 93 then .ok (.array (acc ++ [v]) ⟨start, p2 + 1⟩, p2 + 1)
          else if b = 44 then
            match skipWs bytes (p2 + 1) with
            | .error e => .err e
            | .ok p3 => arrayLoop bytes fuel start (acc ++ [v]) p3
          else .err (syntaxErr p2)
termination_by structural fuel _ _ _ => fuel

/-- `Parser::parse_object`: consume `{` (never checked), skip whitespace,
return the empty object on `}`, otherwise run the member loop. -/
def parseObject (bytes : List Nat) : Nat → Nat → RunOutcome (Value × Nat)
  | 0, _ => .fuelOut
  | fuel + 1, pos =>
    match skipWs bytes (pos + 1) with
    | .error e => .err e
    | .ok p2 =>
      match bytes[p2]? with
      | none => .panic
      | some b =>
        if b = 125 then .ok (.object [] ⟨pos, p2 + 1⟩, p2 + 1)
        else objLoop bytes fuel pos [] p2
termination_by structural fuel _ => fuel

/-- The `loop` of `Parser::parse_object`: parse a key via `parse_string`
(which never checks for an opening quote), require `:` after whitespace,
skip whitespace, parse the value, insert the pair, then after whitespace
expect `}` (done), `,` (skip whitespace, continue), anything else `Syntax`
there.  The non-string-key arm of the Rust `let ... else` is unreachable
because `parse_string` only ever returns a string node; it is kept with the
post-call position, matching the mutated `self.pos`. -/
def objLoop (bytes : List Nat) : Nat → Nat → List (List Nat × Value) → Nat → RunOutcome (Value × Nat)
  | 0, _, _, _ => .fuelOut
  | fuel + 1, start, acc, pos =>
    match parseString bytes pos with
    | .err e => .err e
    | .panic => .panic
    | .fuelOut => .fuelOut
    | .ok (kv, p1) =>
      match kv with
      | .string key _ =>
        match skipWs bytes p1 with
        | .error e => .err e
        | .ok p2 =>
          if bytes[p2]? = some 58 then
            match skipWs bytes (p2 + 1) with
            | .error e => .err e
            | .ok p3 =>
              match parseBytes bytes fuel p3 with
              | .err e => .err e
              | .panic => .panic
              | .fuelOut => .fuelOut
              | .ok (v, p4) =>
                match skipWs bytes p4 with
                | .error e => .err e
                | .ok p5 =>
                  match bytes[p5]? with
                  | none => .panic
                  | some b =>
                    if b = 125 then .ok (.object (hmInsert acc key v) ⟨start, p5 + 1⟩, p5 + 1)
                    else if b = 44 then
                      match skipWs bytes (p5 + 1) with
                      | .error e => .err e
                      | .ok p6 => objLoop bytes fuel start (hmInsert acc key v) p6
                    else .err (syntaxErr p5)
          else .err (syntaxErr p2)
      | _ => .err (syntaxErr p1)
termination_by structural fuel _ _ _ => fuel

end

/-- The `while` loop of `Parser::parse`: while bytes remain, skip whitespace
(breaking out normally when only whitespace remains), parse one value,
append it. -/
def parseTop (bytes : List Nat) : Nat → Nat → List Value → RunOutcome (List Value)
  | 0, _, _ => .fuelOut
  | fuel + 1, pos, acc =>
    if pos < bytes.length then
      match skipWs bytes pos with
      | .error _ => .ok acc
      | .ok p =>
        match parseBytes bytes fuel p with
        | .err e => .err e
        | .panic => .panic
        | .fuelOut => .fuelOut
        | .ok (v, p2) => parseTop bytes fuel p2 (acc ++ [v])
    else .ok acc

/-- The fuel supplied to the embedded run; proved sufficient below
(`parse_str_no_fuelOut`). -/
def parseFuel (bytes : List Nat) : Nat := 3 * bytes.length + 3

/-- `parse_str` / `Parser::parse`: run the top-level loop from position 0
with an empty accumulator and wrap the values in a document.  The input is
the byte sequence of the Rust `&str` argument. -/
def parse_str (bytes : List Nat) : RunOutcome Json :=
  match parseTop bytes (parseFuel bytes) 0 [] with
  | .ok vs => .ok ⟨vs⟩
  | .err e => .err e
  | .panic => .panic
  | .fuelOut => .fuelOut

/-- UTF-8 encoding of one Unicode code point.  Used to talk about the byte
content of a Rust `String` (which stores the UTF-8 encoding of its chars). -/
def utf8EncodeChar (c : Nat) : List Nat :=
  if c < 128 then [c]
  else if c < 2048 then [192 + c / 64, 128 + c % 64]
  else if c < 65536 then [224 + c / 4096, 128 + c / 64 % 64, 128 + c % 64]
  else [240 + c / 262144, 128 + c / 4096 % 64, 128 + c / 64 % 64, 128 + c % 64]

/-- UTF-8 encoding of a code-point sequence: the bytes of the Rust `String`
it models. -/
def utf8Encode (cs : List Nat) : List Nat := (cs.map utf8EncodeChar).flatten

/-- A byte list consisting solely of the parser's whitespace characters. -/
def IsWs (w : List Nat) : Prop := ∀ b ∈ w, b ∈ JSON_WHITESPACE_CHARS

/-- The span invariant of the spec (section 3): a node's half-open `Location`
exactly covers the bytes consumed to build it — opening delimiter at the
start, closing delimiter at the last covered byte for containers and strings,
string content the verbatim bytes between the quotes with no quote inside,
and for numbers exactly the maximal run of number-constituent bytes —
recursively for all children.  `Bool`/`Null` nodes are not constrained (the
spec's invariant names Array/Object/String/Number). -/
inductive SpansOk (bytes : List Nat) : Value → Prop where
  | object {entries s e} :
      bytes[s]? = some 123 → bytes[e - 1]? = some 125 → s < e → e ≤ bytes.length →
      (∀ kv ∈ entries, SpansOk bytes kv.2) →
      SpansOk bytes (.object entries ⟨s, e⟩)
  | array {elems s e} :
      bytes[s]? = some 91 → bytes[e - 1]? = some 93 → s < e → e ≤ bytes.length →
      (∀ v ∈ elems, SpansOk bytes v) →
      SpansOk bytes (.array elems ⟨s, e⟩)
  | string {cs s e} :
      bytes[s]? = some 34 → bytes[e - 1]? = some 34 → s + 2 ≤ e → e ≤ bytes.length →
      cs = sliceBytes bytes (s + 1) (e - 1) →
      (∀ i, s + 1 ≤ i → i < e - 1 → bytes[i]? ≠ some 34) →
      SpansOk bytes (.string cs ⟨s, e⟩)
  | number {n s e} :
      (∀ i, s ≤ i → i < e → ∃ c, bytes[i]? = some c ∧ c ∈ JSON_NUMBER_CHARS) →
      s < e → e ≤ bytes.length →
      (e = bytes.length ∨ ∃ c, bytes[e]? = some c ∧ c ∉ JSON_NUMBER_CHARS) →
      SpansOk bytes (.number n ⟨s, e⟩)
  | bool {b l} : SpansOk bytes (.bool b l)
  | null {l} : SpansOk bytes (.null l)

/-- Abstract JSON values, for stating which value a source text denotes.
Numbers carry their exact rational value, strings their raw content bytes. -/
inductive JsonV where
  | jnull : JsonV
  | jbool : Bool → JsonV
  | jnum : Rat → JsonV
  | jstr : List Nat → JsonV
  | jarr : List JsonV → JsonV
  | jobj : List (List Nat × JsonV) → JsonV

/-- A nonempty all-digit byte list. -/
def DigitsNZ (ds : List Nat) : Prop := ds ≠ [] ∧ ∀ b ∈ ds, isDigitB b = true

/-- The spelled-out shape of a JSON number literal restricted to the
implementation-accepted alphabet: sign flag, integer digits, optional
fraction digits, optional exponent (negative flag and digits). -/
structure NumRec where
  neg : Bool
  ip : List Nat
  frac : Option (List Nat)
  exp : Option (Bool × List Nat)

/-- Well-formedness of the number shape per the JSON grammar: nonempty digit
parts everywhere, no leading zero in the integer part (except `0` itself). -/
def WfNum (r : NumRec) : Prop :=
  DigitsNZ r.ip ∧ (r.ip.head? = some 48 → r.ip = [48]) ∧
  (∀ fr, r.frac = some fr → DigitsNZ fr) ∧
  (∀ es ds, r.exp = some (es, ds) → DigitsNZ ds)

/-- The byte spelling of a number shape: optional `-`, integer digits,
optional `.` and fraction digits, optional lowercase `e`, optional `-`,
exponent digits. -/
def renderNum (r : NumRec) : List Nat :=
  (if r.neg then [45] else []) ++ r.ip ++
  (match r.frac with | some fr => 46 :: fr | none => []) ++
  (match r.exp with | some (es, ds) => 101 :: ((if es then [45] else []) ++ ds) | none => [])

/-- The exact rational value of a number shape. -/
def numVal (r : NumRec) : Rat :=
  let fr := r.frac.getD []
  let m0 : Rat := (digitsVal (r.ip ++ fr) : Nat) / (10 : Rat) ^ fr.length
  let m : Rat := if r.neg then -m0 else m0
  match r.exp with
  | none => m
  | some (es, ds) => if es then m / (10 : Rat) ^ digitsVal ds else m * (10 : Rat) ^ digitsVal ds

/-- String-content bytes admitted by the amended round-trip statement:
printable ASCII other than the quote and the backslash (no escape
sequences means no backslash at all; ASCII because the parser's
byte-to-char copy re-encodes bytes at or above 128). -/
def StrByteOk (b : Nat) : Prop := 32 ≤ b ∧ b < 128 ∧ b ≠ 34 ∧ b ≠ 92

/-- Distinctness of the keys of an abstract object. -/
def keysDistinct (ps : List (List Nat × JsonV)) : Prop := (ps.map Prod.fst).Nodup

mutual

/-- `Renders v core`: `core` is a spelling of the abstract value `v` in the
implementation-accepted fragment of JSON (the amended claim C1): numbers use
only the scanner alphabet (lowercase `e`, no `+`), strings and keys are
printable ASCII without quote or backslash, object keys are distinct.
Interior whitespace is arbitrary wherever the JSON grammar permits it; `core`
itself starts and ends at the value's delimiters. -/
inductive Renders : JsonV → List Nat → Prop where
  | null : Renders .jnull [110, 117, 108, 108]
  | btrue : Renders (.jbool true) [116, 114, 117, 101]
  | bfalse : Renders (.jbool false) [102, 97, 108, 115, 101]
  | num {r} : WfNum r → Renders (.jnum (numVal r)) (renderNum r)
  | str {cs} : (∀ b ∈ cs, StrByteOk b) → Renders (.jstr cs) (34 :: (cs ++ [34]))
  | arrNil {w} : IsWs w → Renders (.jarr []) (91 :: (w ++ [93]))
  | arrCons {w v vs s} : IsWs w → ElemsR (v :: vs) s → Renders (.jarr (v :: vs)) (91 :: (w ++ s))
  | objNil {w} : IsWs w → Renders (.jobj []) (123 :: (w ++ [125]))
  | objCons {w k v ps s} : IsWs w → PairsR ((k, v) :: ps) s → keysDistinct ((k, v) :: ps) →
      Renders (.jobj ((k, v) :: ps)) (123 :: (w ++ s))

/-- One-or-more array elements as consumed by the array loop: the string
starts at an element's first value byte and ends just past the closing `]`. -/
inductive ElemsR : List JsonV → List Nat → Prop where
  | last {v core w} : Renders v core → IsWs w → ElemsR [v] (core ++ w ++ [93])
  | cons {v core w1 w2 vs rest} : Renders v core → IsWs w1 → IsWs w2 → ElemsR vs rest →
      ElemsR (v :: vs) (core ++ w1 ++ 44 :: (w2 ++ rest))

/-- One-or-more object members as consumed by the object loop: the string
starts at a member's opening key quote and ends just past the closing `}`. -/
inductive PairsR : List (List Nat × JsonV) → List Nat → Prop where
  | last {k w1 w2 v core w3} : (∀ b ∈ k, StrByteOk b) → IsWs w1 → IsWs w2 →
      Renders v core → IsWs w3 →
      PairsR [(k, v)] (34 :: (k ++ [34] ++ w1 ++ 58 :: (w2 ++ core ++ w3 ++ [125])))
  | cons {k w1 w2 v core w3 w4 ps rest} : (∀ b ∈ k, StrByteOk b) → IsWs w1 → IsWs w2 →
      Renders v core → IsWs w3 → IsWs w4 → PairsR ps rest →
      PairsR ((k, v) :: ps)
        (34 :: (k ++ [34] ++ w1 ++ 58 :: (w2 ++ core ++ w3 ++ 44 :: (w4 ++ rest))))

end

/-- `bs` is a whole source text (leading and trailing whitespace allowed)
spelling exactly the single value `v` in the implementation-accepted
fragment. -/
def RendersText (v : JsonV) (bs : List Nat) : Prop :=
  ∃ w1 core w2, IsWs w1 ∧ IsWs w2 ∧ Renders v core ∧ bs = w1 ++ core ++ w2

/-- A standard (RFC-style) JSON number literal: optional minus, integer part
without a spurious leading zero, optional fraction, optional exponent with
either case of `e` and an optional explicit sign. -/
def StdNumText (s : List Nat) : Prop :=
  ∃ sgn ip fr ex : List Nat,
    (sgn = [] ∨ sgn = [45]) ∧
    (DigitsNZ ip ∧ (ip.head? = some 48 → ip = [48])) ∧
    (fr = [] ∨ ∃ ds, DigitsNZ ds ∧ fr = 46 :: ds) ∧
    (ex = [] ∨ ∃ e0 es ds, (e0 = 101 ∨ e0 = 69) ∧ (es = [] ∨ es = [43] ∨ es = [45]) ∧
        DigitsNZ ds ∧ ex = e0 :: (es ++ ds)) ∧
    s = sgn ++ ip ++ fr ++ ex

mutual

/-- Well-formed standard JSON value texts containing no escape sequences
(so string contents exclude the quote and the backslash, and raw control
bytes below 32 are excluded as JSON requires): the claimed input class of
C1, prior to amendment. -/
inductive WfJsonVal : List Nat → Prop where
  | null : WfJsonVal [110, 117, 108, 108]
  | btrue : WfJsonVal [116, 114, 117, 101]
  | bfalse : WfJsonVal [102, 97, 108, 115, 101]
  | num {s} : StdNumText s → WfJsonVal s
  | str {cs} : (∀ b ∈ cs, 32 ≤ b ∧ b ≠ 34 ∧ b ≠ 92) → WfJsonVal (34 :: (cs ++ [34]))
  | arrNil {w} : IsWs w → WfJsonVal (91 :: (w ++ [93]))
  | arrCons {w s} : IsWs w → WfElems s → WfJsonVal (91 :: (w ++ s))
  | objNil {w} : IsWs w → WfJsonVal (123 :: (w ++ [125]))
  | objCons {w s} : IsWs w → WfPairs s → WfJsonVal (123 :: (w ++ s))

/-- One-or-more standard array elements, ending just past the `]`. -/
inductive WfElems : List Nat → Prop where
  | last {core w} : WfJsonVal core → IsWs w → WfElems (core ++ w ++ [93])
  | cons {core w1 w2 rest} : WfJsonVal core → IsWs w1 → IsWs w2 → WfElems rest →
      WfElems (core ++ w1 ++ 44 :: (w2 ++ rest))

/-- One-or-more standard object members, ending just past the `}`. -/
inductive WfPairs : List Nat → Prop where
  | last {k w1 w2 core w3} : (∀ b ∈ k, 32 ≤ b ∧ b ≠ 34 ∧ b ≠ 92) → IsWs w1 → IsWs w2 →
      WfJsonVal core → IsWs w3 →
      WfPairs (34 :: (k ++ [34] ++ w1 ++ 58 :: (w2 ++ core ++ w3 ++ [125])))
  | cons {k w1 w2 core w3 w4 rest} : (∀ b ∈ k, 32 ≤ b ∧ b ≠ 34 ∧ b ≠ 92) → IsWs w1 → IsWs w2 →
      WfJsonVal core → IsWs w3 → IsWs w4 → WfPairs rest →
      WfPairs (34 :: (k ++ [34] ++ w1 ++ 58 :: (w2 ++ core ++ w3 ++ 44 :: (w4 ++ rest))))

end

/-- A whole well-formed standard JSON text, no escape sequences: optional
whitespace around a single value. -/
def WfJsonText (bs : List Nat) : Prop :=
  ∃ w1 core w2, IsWs w1 ∧ IsWs w2 ∧ WfJsonVal core ∧ bs = w1 ++ core ++ w2

mutual

/-- `Matches v node`: the parsed node has the structure of the abstract value
`v` — same kind and nesting, string payload = the raw content bytes as code
points, numeric value equal as an exact rational whether the node is the
integer or the float variant; locations unconstrained. -/
inductive Matches : JsonV → Value → Prop where
  | null {l} : Matches .jnull (.null l)
  | bool {b l} : Matches (.jbool b) (.bool b l)
  | int {q : Rat} {i : Int} {l} : (i : Rat) = q → Matches (.jnum q) (.number (.integer i) l)
  | float {q x l} : x = q → Matches (.jnum q) (.number (.float x) l)
  | str {cs l} : Matches (.jstr cs) (.string cs l)
  | arr {vs nodes l} : MatchesL vs nodes → Matches (.jarr vs) (.array nodes l)
  | obj {ps entries l} : MatchesP ps entries → Matches (.jobj ps) (.object entries l)

/-- Pointwise `Matches` on element lists. -/
inductive MatchesL : List JsonV → List Value → Prop where
  | nil : MatchesL [] []
  | cons {v node vs nodes} : Matches v node → MatchesL vs nodes → MatchesL (v :: vs) (node :: nodes)

/-- Pointwise `Matches` on member lists, with identical keys in order. -/
inductive MatchesP : List (List Nat × JsonV) → List (List Nat × Value) → Prop where
  | nil : MatchesP [] []
  | cons {k v node ps entries} : Matches v node → MatchesP ps entries →
      MatchesP ((k, v) :: ps) ((k, node) :: entries)

end

/-! ### Basic facts about the scanning helpers -/

theorem getElem?_some_lt {l : List Nat} {n b : Nat} (h : l[n]? = some b) : n < l.length := by
  by_contra hn
  rw [List.getElem?_eq_none (by omega)] at h
  exact Option.noConfusion h

theorem drop_cons_of_getElem? {l : List Nat} {n b : Nat} (h : l[n]? = some b) :
    l.drop n = b :: l.drop (n + 1) := by
  have hlt := getElem?_some_lt h
  have := List.drop_eq_getElem_cons hlt
  rwa [show l[n] = b from by simpa [List.getElem?_eq_getElem hlt] using h] at this

theorem skipWs_eof {bytes : List Nat} {pos : Nat} (h : bytes.length ≤ pos) :
    skipWs bytes pos = .error (syntaxErr pos) := by
  unfold skipWs
  rw [List.drop_eq_nil_of_le h]
  rfl

theorem skipWs_ws {bytes : List Nat} {pos b : Nat} (h : bytes[pos]? = some b)
    (hw : b ∈ JSON_WHITESPACE_CHARS) : skipWs bytes pos = skipWs bytes (pos + 1) := by
  unfold skipWs
  rw [drop_cons_of_getElem? h]
  simp [skipWsGo, hw]

theorem skipWs_nonws {bytes : List Nat} {pos b : Nat} (h : bytes[pos]? = some b)
    (hw : b ∉ JSON_WHITESPACE_CHARS) : skipWs bytes pos = .ok pos := by
  unfold skipWs
  rw [drop_cons_of_getElem? h]
  simp [skipWsGo, hw]

theorem skipWs_ok_facts {bytes : List Nat} {pos q : Nat} (h : skipWs bytes pos = .ok q) :
    pos ≤ q ∧ (∃ b, bytes[q]? = some b ∧ b ∉ JSON_WHITESPACE_CHARS) ∧
      (∀ i, pos ≤ i → i < q → ∃ c, bytes[i]? = some c ∧ c ∈ JSON_WHITESPACE_CHARS) := by
  match hb : bytes[pos]? with
  | none =>
      rw [skipWs_eof (by rw [List.getElem?_eq_none_iff] at hb; omega)] at h
      exact Except.noConfusion h
  | some b =>
      by_cases hw : b ∈ JSON_WHITESPACE_CHARS
      · rw [skipWs_ws hb hw] at h
        obtain ⟨h1, h2, h3⟩ := skipWs_ok_facts h
        refine ⟨by omega, h2, ?_⟩
        intro i hi1 hi2
        rcases Nat.eq_or_lt_of_le hi1 with rfl | hi1
        · exact ⟨b, hb, hw⟩
        · exact h3 i hi1 hi2
      · rw [skipWs_nonws hb hw] at h
        cases h
        exact ⟨le_refl _, ⟨b, hb, hw⟩, fun i h1 h2 => absurd (lt_of_le_of_lt h1 h2) (lt_irrefl _)⟩
termination_by bytes.length - pos
decreasing_by
  have := getElem?_some_lt hb
  omega

theorem skipWs_ok_le {bytes : List Nat} {pos q : Nat} (h : skipWs bytes pos = .ok q) : pos ≤ q :=
  (skipWs_ok_facts h).1

theorem skipWs_ok_lt_len {bytes : List Nat} {pos q : Nat} (h : skipWs bytes pos = .ok q) :
    q < bytes.length := by
  obtain ⟨-, ⟨b, hb, -⟩, -⟩ := skipWs_ok_facts h
  exact getElem?_some_lt hb

theorem skipWs_err_pos {bytes : List Nat} {pos : Nat} {e : ParseError}
    (hpos : pos ≤ bytes.length) (h : skipWs bytes pos = .error e) :
    e = syntaxErr bytes.length := by
  match hb : bytes[pos]? with
  | none =>
      have hge : bytes.length ≤ pos := by rw [List.getElem?_eq_none_iff] at hb; omega
      rw [skipWs_eof hge] at h
      cases h
      have : pos = bytes.length := le_antisymm hpos hge
      rw [this]
  | some b =>
      by_cases hw : b ∈ JSON_WHITESPACE_CHARS
      · rw [skipWs_ws hb hw] at h
        exact skipWs_err_pos (by have := getElem?_some_lt hb; omega) h
      · rw [skipWs_nonws hb hw] at h
        exact Except.noConfusion h
termination_by bytes.length - pos
decreasing_by
  have := getElem?_some_lt hb
  omega

theorem skipWs_all_ws {bytes : List Nat} {pos : Nat} (hpos : pos ≤ bytes.length)
    (h : ∀ i, pos ≤ i → i < bytes.length → ∃ c, bytes[i]? = some c ∧ c ∈ JSON_WHITESPACE_CHARS) :
    skipWs bytes pos = .error (syntaxErr bytes.length) := by
  rcases Nat.eq_or_lt_of_le hpos with rfl | hlt
  · exact skipWs_eof (le_refl _)
  · obtain ⟨c, hc, hcw⟩ := h pos (le_refl _) hlt
    rw [skipWs_ws hc hcw]
    exact skipWs_all_ws (by omega) (fun i h1 h2 => h i (by omega) h2)
termination_by bytes.length - pos

theorem skipWsGo_ws_append {w : List Nat} {b : Nat} {rest : List Nat} (hw : IsWs w)
    (hb : b ∉ JSON_WHITESPACE_CHARS) :
    ∀ p, skipWsGo (w ++ b :: rest) p = .ok (p + w.length) := by
  induction w with
  | nil => intro p; simp [skipWsGo, hb]
  | cons a as ih =>
      intro p
      have ha : a ∈ JSON_WHITESPACE_CHARS := hw a (by simp)
      have ihs := ih (fun x hx => hw x (by simp [hx])) (p + 1)
      have hstep : skipWsGo ((a :: as) ++ b :: rest) p = skipWsGo (as ++ b :: rest) (p + 1) := by
        simp [skipWsGo, ha]
      rw [hstep, ihs, show p + 1 + as.length = p + (a :: as).length from by
        simp only [List.length_cons]; omega]

theorem numRun_eof {bytes : List Nat} {pos : Nat} (h : bytes.length ≤ pos) :
    numRun bytes pos = 0 := by
  unfold numRun
  rw [List.drop_eq_nil_of_le h]
  rfl

theorem numRun_in {bytes : List Nat} {pos b : Nat} (h : bytes[pos]? = some b)
    (hb : b ∈ JSON_NUMBER_CHARS) : numRun bytes pos = numRun bytes (pos + 1) + 1 := by
  unfold numRun
  rw [drop_cons_of_getElem? h]
  simp [numRunGo, hb]

theorem numRun_notin {bytes : List Nat} {pos b : Nat} (h : bytes[pos]? = some b)
    (hb : b ∉ JSON_NUMBER_CHARS) : numRun bytes pos = 0 := by
  unfold numRun
  rw [drop_cons_of_getElem? h]
  simp [numRunGo, hb]

theorem numRun_le {bytes : List Nat} {pos : Nat} : numRun bytes pos ≤ bytes.length - pos := by
  unfold numRun
  have : (bytes.drop pos).length = bytes.length - pos := List.length_drop ..
  rw [← this]
  generalize bytes.drop pos = s
  induction s with
  | nil => simp [numRunGo]
  | cons a r ih =>
      by_cases ha : a ∈ JSON_NUMBER_CHARS <;> simp [numRunGo, ha]
      omega

theorem numRun_all_in {bytes : List Nat} {pos : Nat} :
    ∀ i, pos ≤ i → i < pos + numRun bytes pos →
      ∃ c, bytes[i]? = some c ∧ c ∈ JSON_NUMBER_CHARS := by
  intro i h1 h2
  match hb : bytes[pos]? with
  | none =>
      rw [numRun_eof (by rw [List.getElem?_eq_none_iff] at hb; omega)] at h2
      omega
  | some b =>
      by_cases hn : b ∈ JSON_NUMBER_CHARS
      · rcases Nat.eq_or_lt_of_le h1 with rfl | h1
        · exact ⟨b, hb, hn⟩
        · rw [numRun_in hb hn] at h2
          exact @numRun_all_in bytes (pos + 1) i (by omega) (by omega)
      · rw [numRun_notin hb hn] at h2
        omega
termination_by bytes.length - pos
decreasing_by
  have := getElem?_some_lt hb
  omega

theorem numRun_max {bytes : List Nat} {pos c : Nat}
    (h : bytes[pos + numRun bytes pos]? = some c) : c ∉ JSON_NUMBER_CHARS := by
  match hb : bytes[pos]? with
  | none =>
      rw [numRun_eof (by rw [List.getElem?_eq_none_iff] at hb; omega)] at h
      rw [List.getElem?_eq_none_iff] at hb
      have := getElem?_some_lt h
      omega
  | some b =>
      by_cases hn : b ∈ JSON_NUMBER_CHARS
      · have hrec := numRun_in hb hn
        rw [hrec, show pos + (numRun bytes (pos + 1) + 1) = (pos + 1) + numRun bytes (pos + 1)
          from by omega] at h
        exact numRun_max h
      · rw [numRun_notin hb hn, Nat.add_zero] at h
        rw [hb] at h
        cases h
        exact hn
termination_by bytes.length - pos
decreasing_by
  have := getElem?_some_lt hb
  omega

theorem numRunGo_stop {s : List Nat} (hs : ∀ b ∈ s, b ∈ JSON_NUMBER_CHARS) {c : Nat}
    (hc : c ∉ JSON_NUMBER_CHARS) (rest : List Nat) :
    numRunGo (s ++ c :: rest) = s.length := by
  induction s with
  | nil => simp [numRunGo, hc]
  | cons a r ih =>
      have ha : a ∈ JSON_NUMBER_CHARS := hs a (by simp)
      have := ih (fun x hx => hs x (by simp [hx]))
      simp [numRunGo, ha, this]

theorem numRunGo_all {s : List Nat} (hs : ∀ b ∈ s, b ∈ JSON_NUMBER_CHARS) :
    numRunGo s = s.length := by
  induction s with
  | nil => rfl
  | cons a r ih =>
      have ha : a ∈ JSON_NUMBER_CHARS := hs a (by simp)
      have := ih (fun x hx => hs x (by simp [hx]))
      simp [numRunGo, ha, this]

theorem quoteScanGo_append {s : List Nat} (hs : ∀ b ∈ s, b ≠ JSON_QUOTE) (rest : List Nat) :
    quoteScanGo (s ++ JSON_QUOTE :: rest) = some s.length := by
  induction s with
  | nil => simp [quoteScanGo]
  | cons a r ih =>
      have ha : a ≠ JSON_QUOTE := hs a (by simp)
      have := ih (fun x hx => hs x (by simp [hx]))
      simp [quoteScanGo, ha, this]

theorem quoteScan_eof {bytes : List Nat} {pos : Nat} (h : bytes.length ≤ pos) :
    quoteScan bytes pos = none := by
  unfold quoteScan
  rw [List.drop_eq_nil_of_le h]
  rfl

theorem quoteScan_quote {bytes : List Nat} {pos : Nat} (h : bytes[pos]? = some JSON_QUOTE) :
    quoteScan bytes pos = some 0 := by
  unfold quoteScan
  rw [drop_cons_of_getElem? h]
  simp [quoteScanGo]

theorem quoteScan_nonquote {bytes : List Nat} {pos b : Nat} (h : bytes[pos]? = some b)
    (hb : b ≠ JSON_QUOTE) :
    quoteScan bytes pos = (quoteScan bytes (pos + 1)).map (· + 1) := by
  unfold quoteScan
  rw [drop_cons_of_getElem? h]
  simp [quoteScanGo, hb]

theorem quoteScan_some_facts {bytes : List Nat} {pos c : Nat}
    (h : quoteScan bytes pos = some c) :
    bytes[pos + c]? = some JSON_QUOTE ∧
      ∀ i, pos ≤ i → i < pos + c → bytes[i]? ≠ some JSON_QUOTE := by
  match hb : bytes[pos]? with
  | none =>
      rw [quoteScan_eof (by rw [List.getElem?_eq_none_iff] at hb; omega)] at h
      exact Option.noConfusion h
  | some b =>
      by_cases hq : b = JSON_QUOTE
      · subst hq
        rw [quoteScan_quote hb] at h
        cases h
        exact ⟨by simpa using hb, fun i h1 h2 => by omega⟩
      · rw [quoteScan_nonquote hb hq] at h
        match hc : quoteScan bytes (pos + 1) with
        | none => rw [hc] at h; exact Option.noConfusion h
        | some c' =>
            rw [hc] at h
            simp at h
            subst h
            obtain ⟨ih1, ih2⟩ := quoteScan_some_facts hc
            refine ⟨by rw [show pos + (c' + 1) = pos + 1 + c' from by omega]; exact ih1, ?_⟩
            intro i hi1 hi2
            rcases Nat.eq_or_lt_of_le hi1 with rfl | hi1
            · rw [hb]; intro hcon; cases hcon; exact hq rfl
            · exact ih2 i (by omega) (by omega)
termination_by bytes.length - pos
decreasing_by
  have := getElem?_some_lt hb
  omega

/-! ### Index and slice bookkeeping across list appends -/

theorem getElem?_append_at {pre rest : List Nat} {i : Nat} :
    (pre ++ rest)[pre.length + i]? = rest[i]? := by
  rw [List.getElem?_append_right (by omega)]
  congr 1
  omega

theorem getElem?_append_head {pre rest : List Nat} :
    (pre ++ rest)[pre.length]? = rest[0]? := by
  simpa using @getElem?_append_at pre rest 0

theorem sliceBytes_append {pre rest : List Nat} {n : Nat} :
    sliceBytes (pre ++ rest) pre.length (pre.length + n) = rest.take n := by
  unfold sliceBytes
  rw [List.drop_append_of_le_length (le_refl _), List.drop_length]
  simp

theorem sliceBytes_append_exact {pre mid rest : List Nat} :
    sliceBytes (pre ++ (mid ++ rest)) pre.length (pre.length + mid.length) = mid := by
  rw [sliceBytes_append, List.take_append_of_le_length (le_refl _), List.take_length]

theorem sliceBytes_length {bytes : List Nat} {i j : Nat} (hj : j ≤ bytes.length) :
    (sliceBytes bytes i j).length = j - i := by
  unfold sliceBytes
  rw [List.length_take, List.length_drop]
  omega

theorem sliceBytes_getElem? {bytes : List Nat} {i j k : Nat} (hk : k < j - i) :
    (sliceBytes bytes i j)[k]? = bytes[i + k]? := by
  unfold sliceBytes
  rw [List.getElem?_take_of_lt hk, List.getElem?_drop]

/-! ### Facts about the non-recursive parsing routines -/

theorem parseI64_nil : parseI64 [] = none := rfl

theorem parseF64_nil : parseF64 [] = none := rfl

theorem parseString_ok_facts {bytes : List Nat} {pos : Nat} {v : Value} {p' : Nat}
    (h : parseString bytes pos = .ok (v, p')) :
    ∃ cs, v = .string cs ⟨pos, p'⟩ ∧ pos + 2 ≤ p' ∧ p' ≤ bytes.length ∧
      cs = sliceBytes bytes (pos + 1) (p' - 1) ∧ bytes[p' - 1]? = some JSON_QUOTE ∧
      (∀ i, pos + 1 ≤ i → i < p' - 1 → bytes[i]? ≠ some JSON_QUOTE) := by
  unfold parseString at h
  match hq : quoteScan bytes (pos + 1) with
  | none => rw [hq] at h; exact RunOutcome.noConfusion h
  | some c =>
      rw [hq] at h
      obtain ⟨hquote, hnone⟩ := quoteScan_some_facts hq
      cases h
      have hlt := getElem?_some_lt hquote
      refine ⟨_, rfl, by omega, by omega, ?_, ?_, ?_⟩
      · rw [show pos + 1 + c + 1 - 1 = pos + 1 + c from by omega]
      · rw [show pos + 1 + c + 1 - 1 = pos + 1 + c from by omega]
        exact hquote
      · intro i h1 h2
        exact hnone i h1 (by omega)

theorem parseString_err_facts {bytes : List Nat} {pos : Nat} {e : ParseError}
    (h : parseString bytes pos = .err e) : e = syntaxErr (pos + 1) := by
  unfold parseString at h
  match hq : quoteScan bytes (pos + 1) with
  | none => rw [hq] at h; cases h; rfl
  | some c => rw [hq] at h; exact RunOutcome.noConfusion h

theorem parseString_not_fuelOut {bytes : List Nat} {pos : Nat} :
    parseString bytes pos ≠ .fuelOut := by
  unfold parseString
  match hq : quoteScan bytes (pos + 1) with
  | none => simp
  | some c => simp

theorem parseString_not_panic {bytes : List Nat} {pos : Nat} :
    parseString bytes pos ≠ .panic := by
  unfold parseString
  match hq : quoteScan bytes (pos + 1) with
  | none => simp
  | some c => simp

theorem parseNumber_ok_facts {bytes : List Nat} {pos : Nat} {v : Value} {p' : Nat}
    (h : parseNumber bytes pos = .ok (v, p')) :
    p' = pos + numRun bytes pos ∧ 1 ≤ numRun bytes pos ∧ p' ≤ bytes.length ∧
      ∃ n, v = .number n ⟨pos, p'⟩ ∧
        ((∃ i, parseI64 (sliceBytes bytes pos p') = some i ∧ n = .integer i) ∨
          (parseI64 (sliceBytes bytes pos p') = none ∧
            ∃ q, parseF64 (sliceBytes bytes pos p') = some q ∧ n = .float q)) := by
  have hrunpos : 1 ≤ numRun bytes pos := by
    by_contra hz
    have hz0 : numRun bytes pos = 0 := by omega
    unfold parseNumber at h
    rw [hz0] at h
    have hsl : sliceBytes bytes pos (pos + 0) = [] := by
      unfold sliceBytes
      simp
    rw [hsl, parseI64_nil, parseF64_nil] at h
    exact RunOutcome.noConfusion h
  have hlen : pos + numRun bytes pos ≤ bytes.length := by
    have := @numRun_le bytes pos
    omega
  unfold parseNumber at h
  match hi : parseI64 (sliceBytes bytes pos (pos + numRun bytes pos)) with
  | some i =>
      rw [hi] at h
      cases h
      exact ⟨rfl, hrunpos, hlen, _, rfl, .inl ⟨i, hi, rfl⟩⟩
  | none =>
      rw [hi] at h
      match hf : parseF64 (sliceBytes bytes pos (pos + numRun bytes pos)) with
      | some q =>
          rw [hf] at h
          cases h
          exact ⟨rfl, hrunpos, hlen, _, rfl, .inr ⟨hi, q, hf, rfl⟩⟩
      | none => rw [hf] at h; exact RunOutcome.noConfusion h

theorem parseNumber_err_facts {bytes : List Nat} {pos : Nat} {e : ParseError}
    (h : parseNumber bytes pos = .err e) : e = numberErr pos := by
  unfold parseNumber at h
  match hi : parseI64 (sliceBytes bytes pos (pos + numRun bytes pos)) with
  | some i => rw [hi] at h; exact RunOutcome.noConfusion h
  | none =>
      rw [hi] at h
      match hf : parseF64 (sliceBytes bytes pos (pos + numRun bytes pos)) with
      | some q => rw [hf] at h; exact RunOutcome.noConfusion h
      | none => rw [hf] at h; cases h; rfl

theorem parseNumber_not_fuelOut {bytes : List Nat} {pos : Nat} :
    parseNumber bytes pos ≠ .fuelOut := by
  unfold parseNumber
  match hi : parseI64 (sliceBytes bytes pos (pos + numRun bytes pos)) with
  | some i => simp
  | none =>
      match hf : parseF64 (sliceBytes bytes pos (pos + numRun bytes pos)) with
      | some q => simp [hi, hf]
      | none => simp [hi, hf]

theorem parseNumber_not_panic {bytes : List Nat} {pos : Nat} :
    parseNumber bytes pos ≠ .panic := by
  unfold parseNumber
  match hi : parseI64 (sliceBytes bytes pos (pos + numRun bytes pos)) with
  | some i => simp
  | none =>
      match hf : parseF64 (sliceBytes bytes pos (pos + numRun bytes pos)) with
      | some q => simp [hi, hf]
      | none => simp [hi, hf]

theorem parseNull_ok_facts {bytes : List Nat} {pos : Nat} {v : Value} {p' : Nat}
    (h : parseNull bytes pos = .ok (v, p')) :
    v = .null ⟨pos, pos + LEN_NULL⟩ ∧ p' = pos + LEN_NULL ∧ pos + LEN_NULL ≤ bytes.length ∧
      sliceBytes bytes pos (pos + LEN_NULL) = [110, 117, 108, 108] := by
  unfold parseNull at h
  split at h
  · split at h
    · cases h
      refine ⟨rfl, rfl, by assumption, by assumption⟩
    · exact RunOutcome.noConfusion h
  · exact RunOutcome.noConfusion h

theorem parseNull_err_facts {bytes : List Nat} {pos : Nat} {e : ParseError}
    (h : parseNull bytes pos = .err e) : e = syntaxErr pos := by
  unfold parseNull at h
  split at h
  · split at h
    · exact RunOutcome.noConfusion h
    · cases h; rfl
  · exact RunOutcome.noConfusion h

theorem parseNull_panic_iff {bytes : List Nat} {pos : Nat} :
    parseNull bytes pos = .panic ↔ bytes.length < pos + LEN_NULL := by
  unfold parseNull
  constructor
  · intro h
    split at h
    · split at h <;> exact RunOutcome.noConfusion h
    · omega
  · intro h
    rw [if_neg (by omega)]

theorem parseNull_not_fuelOut {bytes : List Nat} {pos : Nat} :
    parseNull bytes pos ≠ .fuelOut := by
  unfold parseNull
  split
  · split <;> simp
  · simp

theorem parseBool_ok_facts {bytes : List Nat} {pos : Nat} {v : Value} {p' : Nat}
    (h : parseBool bytes pos = .ok (v, p')) :
    (v = .bool true ⟨pos, pos + LEN_TRUE⟩ ∧ p' = pos + LEN_TRUE ∧
        pos + LEN_TRUE ≤ bytes.length) ∨
      (v = .bool false ⟨pos, pos + LEN_FALSE⟩ ∧ p' = pos + LEN_FALSE ∧
        pos + LEN_FALSE ≤ bytes.length) := by
  unfold parseBool at h
  split at h
  · split at h
    · cases h
      exact .inl ⟨rfl, rfl, by assumption⟩
    · split at h
      · split at h
        · cases h
          exact .inr ⟨rfl, rfl, by assumption⟩
        · exact RunOutcome.noConfusion h
      · exact RunOutcome.noConfusion h
  · exact RunOutcome.noConfusion h

theorem parseBool_err_facts {bytes : List Nat} {pos : Nat} {e : ParseError}
    (h : parseBool bytes pos = .err e) : e = syntaxErr pos := by
  unfold parseBool at h
  split at h
  · split at h
    · exact RunOutcome.noConfusion h
    · split at h
      · split at h
        · exact RunOutcome.noConfusion h
        · cases h; rfl
      · exact RunOutcome.noConfusion h
  · exact RunOutcome.noConfusion h

theorem parseBool_not_fuelOut {bytes : List Nat} {pos : Nat} :
    parseBool bytes pos ≠ .fuelOut := by
  unfold parseBool
  split
  · split
    · simp
    · split
      · split <;> simp
      · simp
  · simp

/-! ### Progress: every successful parse strictly advances the position and
stays within the buffer -/

mutual

theorem parseBytes_progress :
    ∀ (bytes : List Nat) (fuel pos : Nat) (v : Value) (p' : Nat),
      parseBytes bytes fuel pos = .ok (v, p') → pos < p' ∧ p' ≤ bytes.length
  | bytes, 0, pos, v, p', h => by simp [parseBytes] at h
  | bytes, fuel + 1, pos, v, p', h => by
      simp only [parseBytes] at h
      match hsw : skipWs bytes pos with
      | .error e => rw [hsw] at h; exact RunOutcome.noConfusion h
      | .ok p =>
          rw [hsw] at h
          dsimp only at h
          have hle := skipWs_ok_le hsw
          match hb : bytes[p]? with
          | none => rw [hb] at h; exact RunOutcome.noConfusion h
          | some b =>
              rw [hb] at h
              dsimp only at h
              split at h
              · have := parseObject_progress bytes fuel p v p' h; omega
              · split at h
                · have := parseArray_progress bytes fuel p v p' h; omega
                · split at h
                  · obtain ⟨cs, -, h1, h2, -⟩ := parseString_ok_facts h; omega
                  · split at h
                    · obtain ⟨h1, h2, h3, -⟩ := parseNumber_ok_facts h; omega
                    · split at h
                      · rcases parseBool_ok_facts h with ⟨-, h1, h2⟩ | ⟨-, h1, h2⟩ <;>
                          simp only [LEN_TRUE, LEN_FALSE] at h1 h2 <;> omega
                      · split at h
                        · obtain ⟨-, h1, h2, -⟩ := parseNull_ok_facts h
                          simp only [LEN_NULL] at h1 h2
                          omega
                        · exact RunOutcome.noConfusion h

theorem parseArray_progress :
    ∀ (bytes : List Nat) (fuel pos : Nat) (v : Value) (p' : Nat),
      parseArray bytes fuel pos = .ok (v, p') → pos < p' ∧ p' ≤ bytes.length
  | bytes, 0, pos, v, p', h => by simp [parseArray] at h
  | bytes, fuel + 1, pos, v, p', h => by
      simp only [parseArray] at h
      match hsw : skipWs bytes (pos + 1) with
      | .error e => rw [hsw] at h; exact RunOutcome.noConfusion h
      | .ok p2 =>
          rw [hsw] at h
          dsimp only at h
          have hle := skipWs_ok_le hsw
          have hlt := skipWs_ok_lt_len hsw
          match hb : bytes[p2]? with
          | none => rw [hb] at h; exact RunOutcome.noConfusion h
          | some b =>
              rw [hb] at h
              dsimp only at h
              split at h
              · cases h; constructor <;> omega
              · have := arrayLoop_progress bytes fuel pos [] p2 v p' h; omega

theorem arrayLoop_progress :
    ∀ (bytes : List Nat) (fuel start : Nat) (acc : List Value) (pos : Nat) (v : Value) (p' : Nat),
      arrayLoop bytes fuel start acc pos = .ok (v, p') → pos < p' ∧ p' ≤ bytes.length
  | bytes, 0, start, acc, pos, v, p', h => by simp [arrayLoop] at h
  | bytes, fuel + 1, start, acc, pos, v, p', h => by
      simp only [arrayLoop] at h
      match hv : parseBytes bytes fuel pos with
      | .err e => rw [hv] at h; exact RunOutcome.noConfusion h
      | .panic => rw [hv] at h; exact RunOutcome.noConfusion h
      | .fuelOut => rw [hv] at h; exact RunOutcome.noConfusion h
      | .ok (v1, p1) =>
          rw [hv] at h
          dsimp only at h
          have hp1 := parseBytes_progress bytes fuel pos v1 p1 hv
          match hsw : skipWs bytes p1 with
          | .error e => rw [hsw] at h; exact RunOutcome.noConfusion h
          | .ok p2 =>
              rw [hsw] at h
              dsimp only at h
              have hle := skipWs_ok_le hsw
              have hlt := skipWs_ok_lt_len hsw
              match hb : bytes[p2]? with
              | none => rw [hb] at h; exact RunOutcome.noConfusion h
              | some b =>
                  rw [hb] at h
                  dsimp only at h
                  split at h
                  · cases h; constructor <;> omega
                  · split at h
                    · match hsw2 : skipWs bytes (p2 + 1) with
                      | .error e => rw [hsw2] at h; exact RunOutcome.noConfusion h
                      | .ok p3 =>
                          rw [hsw2] at h
                          dsimp only at h
                          have hle2 := skipWs_ok_le hsw2
                          have := arrayLoop_progress bytes fuel start (acc ++ [v1]) p3 v p' h
                          omega
                    · exact RunOutcome.noConfusion h

theorem parseObject_progress :
    ∀ (bytes : List Nat) (fuel pos : Nat) (v : Value) (p' : Nat),
      parseObject bytes fuel pos = .ok (v, p') → pos < p' ∧ p' ≤ bytes.length
  | bytes, 0, pos, v, p', h => by simp [parseObject] at h
  | bytes, fuel + 1, pos, v, p', h => by
      simp only [parseObject] at h
      match hsw : skipWs bytes (pos + 1) with
      | .error e => rw [hsw] at h; exact RunOutcome.noConfusion h
      | .ok p2 =>
          rw [hsw] at h
          dsimp only at h
          have hle := skipWs_ok_le hsw
          have hlt := skipWs_ok_lt_len hsw
          match hb : bytes[p2]? with
          | none => rw [hb] at h; exact RunOutcome.noConfusion h
          | some b =>
              rw [hb] at h
              dsimp only at h
              split at h
              · cases h; constructor <;> omega
              · have := objLoop_progress bytes fuel pos [] p2 v p' h; omega

theorem objLoop_progress :
    ∀ (bytes : List Nat) (fuel start : Nat) (acc : List (List Nat × Value)) (pos : Nat)
      (v : Value) (p' : Nat),
      objLoop bytes fuel start acc pos = .ok (v, p') → pos < p' ∧ p' ≤ bytes.length
  | bytes, 0, start, acc, pos, v, p', h => by simp [objLoop] at h
  | bytes, fuel + 1, start, acc, pos, v, p', h => by
      simp only [objLoop] at h
      match hk : parseString bytes pos with
      | .err e => rw [hk] at h; exact RunOutcome.noConfusion h
      | .panic => rw [hk] at h; exact RunOutcome.noConfusion h
      | .fuelOut => rw [hk] at h; exact RunOutcome.noConfusion h
      | .ok (kv, p1) =>
          rw [hk] at h
          dsimp only at h
          obtain ⟨cs, hkv, hkp1, hkp2, -⟩ := parseString_ok_facts hk
          subst hkv
          dsimp only at h
          match hsw : skipWs bytes p1 with
          | .error e => rw [hsw] at h; exact RunOutcome.noConfusion h
          | .ok p2 =>
              rw [hsw] at h
              dsimp only at h
              have hle := skipWs_ok_le hsw
              split at h
              · match hsw2 : skipWs bytes (p2 + 1) with
                | .error e => rw [hsw2] at h; exact RunOutcome.noConfusion h
                | .ok p3 =>
                    rw [hsw2] at h
                    dsimp only at h
                    have hle2 := skipWs_ok_le hsw2
                    match hv : parseBytes bytes fuel p3 with
                    | .err e => rw [hv] at h; exact RunOutcome.noConfusion h
                    | .panic => rw [hv] at h; exact RunOutcome.noConfusion h
                    | .fuelOut => rw [hv] at h; exact RunOutcome.noConfusion h
                    | .ok (v1, p4) =>
                        rw [hv] at h
                        dsimp only at h
                        have hp4 := parseBytes_progress bytes fuel p3 v1 p4 hv
                        match hsw3 : skipWs bytes p4 with
                        | .error e => rw [hsw3] at h; exact RunOutcome.noConfusion h
                        | .ok p5 =>
                            rw [hsw3] at h
                            dsimp only at h
                            have hle3 := skipWs_ok_le hsw3
                            have hlt3 := skipWs_ok_lt_len hsw3
                            match hb : bytes[p5]? with
                            | none => rw [hb] at h; exact RunOutcome.noConfusion h
                            | some b =>
                                rw [hb] at h
                                dsimp only at h
                                split at h
                                · cases h; constructor <;> omega
                                · split at h
                                  · match hsw4 : skipWs bytes (p5 + 1) with
                                    | .error e =>
                                        rw [hsw4] at h; exact RunOutcome.noConfusion h
                                    | .ok p6 =>
                                        rw [hsw4] at h
                                        dsimp only at h
                                        have hle4 := skipWs_ok_le hsw4
                                        have := objLoop_progress bytes fuel start
                                          (hmInsert acc cs v1) p6 v p' h
                                        omega
                                  · exact RunOutcome.noConfusion h
              · exact RunOutcome.noConfusion h

end

/-! ### Fuel monotonicity: a non-fuelOut result is stable under more fuel -/

mutual

theorem parseBytes_mono :
    ∀ (bytes : List Nat) (fuel pos : Nat) (r : RunOutcome (Value × Nat)),
      parseBytes bytes fuel pos = r → r ≠ .fuelOut → parseBytes bytes (fuel + 1) pos = r
  | bytes, 0, pos, r, h, hr => by
      simp only [parseBytes] at h
      exact absurd h.symm hr
  | bytes, fuel + 1, pos, r, h, hr => by
      simp only [parseBytes] at h ⊢
      match hsw : skipWs bytes pos with
      | .error e => rw [hsw] at h; exact h
      | .ok p =>
          rw [hsw] at h
          dsimp only at h ⊢
          match hb : bytes[p]? with
          | none => rw [hb] at h; exact h
          | some b =>
              rw [hb] at h
              dsimp only at h ⊢
              by_cases h1 : b = 123
              · rw [if_pos h1] at h ⊢
                exact parseObject_mono bytes fuel p r h hr
              · rw [if_neg h1] at h ⊢
                by_cases h2 : b = 91
                · rw [if_pos h2] at h ⊢
                  exact parseArray_mono bytes fuel p r h hr
                · rw [if_neg h2] at h ⊢
                  exact h

theorem parseArray_mono :
    ∀ (bytes : List Nat) (fuel pos : Nat) (r : RunOutcome (Value × Nat)),
      parseArray bytes fuel pos = r → r ≠ .fuelOut → parseArray bytes (fuel + 1) pos = r
  | bytes, 0, pos, r, h, hr => by
      simp only [parseArray] at h
      exact absurd h.symm hr
  | bytes, fuel + 1, pos, r, h, hr => by
      simp only [parseArray] at h ⊢
      match hsw : skipWs bytes (pos + 1) with
      | .error e => rw [hsw] at h; exact h
      | .ok p2 =>
          rw [hsw] at h
          dsimp only at h ⊢
          match hb : bytes[p2]? with
          | none => rw [hb] at h; exact h
          | some b =>
              rw [hb] at h
              dsimp only at h ⊢
              by_cases h1 : b = 93
              · rw [if_pos h1] at h ⊢
                exact h
              · rw [if_neg h1] at h ⊢
                exact arrayLoop_mono bytes fuel pos [] p2 r h hr

theorem arrayLoop_mono :
    ∀ (bytes : List Nat) (fuel start : Nat) (acc : List Value) (pos : Nat)
      (r : RunOutcome (Value × Nat)),
      arrayLoop bytes fuel start acc pos = r → r ≠ .fuelOut →
        arrayLoop bytes (fuel + 1) start acc pos = r
  | bytes, 0, start, acc, pos, r, h, hr => by
      simp only [arrayLoop] at h
      exact absurd h.symm hr
  | bytes, fuel + 1, start, acc, pos, r, h, hr => by
      simp only [arrayLoop] at h ⊢
      match hv : parseBytes bytes fuel pos with
      | .fuelOut => rw [hv] at h; exact absurd h.symm hr
      | .err e =>
          rw [hv] at h
          rw [parseBytes_mono bytes fuel pos _ hv (by simp)]
          exact h
      | .panic =>
          rw [hv] at h
          rw [parseBytes_mono bytes fuel pos _ hv (by simp)]
          exact h
      | .ok (v1, p1) =>
          rw [parseBytes_mono bytes fuel pos _ hv (by simp)]
          rw [hv] at h
          dsimp only at h ⊢
          match hsw : skipWs bytes p1 with
          | .error e => rw [hsw] at h; exact h
          | .ok p2 =>
              rw [hsw] at h
              dsimp only at h ⊢
              match hb : bytes[p2]? with
              | none => rw [hb] at h; exact h
              | some b =>
                  rw [hb] at h
                  dsimp only at h ⊢
                  by_cases h1 : b = 93
                  · rw [if_pos h1] at h ⊢
                    exact h
                  · rw [if_neg h1] at h ⊢
                    by_cases h2 : b = 44
                    · rw [if_pos h2] at h ⊢
                      match hsw2 : skipWs bytes (p2 + 1) with
                      | .error e => rw [hsw2] at h; exact h
                      | .ok p3 =>
                          rw [hsw2] at h
                          dsimp only at h ⊢
                          exact arrayLoop_mono bytes fuel start (acc ++ [v1]) p3 r h hr
                    · rw [if_neg h2] at h ⊢
                      exact h

theorem parseObject_mono :
    ∀ (bytes : List Nat) (fuel pos : Nat) (r : RunOutcome (Value × Nat)),
      parseObject bytes fuel pos = r → r ≠ .fuelOut → parseObject bytes (fuel + 1) pos = r
  | bytes, 0, pos, r, h, hr => by
      simp only [parseObject] at h
      exact absurd h.symm hr
  | bytes, fuel + 1, pos, r, h, hr => by
      simp only [parseObject] at h ⊢
      match hsw : skipWs bytes (pos + 1) with
      | .error e => rw [hsw] at h; exact h
      | .ok p2 =>
          rw [hsw] at h
          dsimp only at h ⊢
          match hb : bytes[p2]? with
          | none => rw [hb] at h; exact h
          | some b =>
              rw [hb] at h
              dsimp only at h ⊢
              by_cases h1 : b = 125
              · rw [if_pos h1] at h ⊢
                exact h
              · rw [if_neg h1] at h ⊢
                exact objLoop_mono bytes fuel pos [] p2 r h hr

theorem objLoop_mono :
    ∀ (bytes : List Nat) (fuel start : Nat) (acc : List (List Nat × Value)) (pos : Nat)
      (r : RunOutcome (Value × Nat)),
      objLoop bytes fuel start acc pos = r → r ≠ .fuelOut →
        objLoop bytes (fuel + 1) start acc pos = r
  | bytes, 0, start, acc, pos, r, h, hr => by
      simp only [objLoop] at h
      exact absurd h.symm hr
  | bytes, fuel + 1, start, acc, pos, r, h, hr => by
      simp only [objLoop] at h ⊢
      match hk : parseString bytes pos with
      | .fuelOut => exact absurd hk parseString_not_fuelOut
      | .err e => rw [hk] at h; exact h
      | .panic => rw [hk] at h; exact h
      | .ok (kv, p1) =>
          rw [hk] at h
          obtain ⟨cs, hkv, -, -, -⟩ := parseString_ok_facts hk
          subst hkv
          dsimp only at h ⊢
          match hsw : skipWs bytes p1 with
          | .error e => rw [hsw] at h; exact h
          | .ok p2 =>
              rw [hsw] at h
              dsimp only at h ⊢
              by_cases hc : bytes[p2]? = some 58
              · rw [if_pos hc] at h ⊢
                match hsw2 : skipWs bytes (p2 + 1) with
                | .error e => rw [hsw2] at h; exact h
                | .ok p3 =>
                    rw [hsw2] at h
                    dsimp only at h ⊢
                    match hv : parseBytes bytes fuel p3 with
                    | .fuelOut => rw [hv] at h; exact absurd h.symm hr
                    | .err e =>
                        rw [hv] at h
                        rw [parseBytes_mono bytes fuel p3 _ hv (by simp)]
                        exact h
                    | .panic =>
                        rw [hv] at h
                        rw [parseBytes_mono bytes fuel p3 _ hv (by simp)]
                        exact h
                    | .ok (v1, p4) =>
                        rw [parseBytes_mono bytes fuel p3 _ hv (by simp)]
                        rw [hv] at h
                        dsimp only at h ⊢
                        match hsw3 : skipWs bytes p4 with
                        | .error e => rw [hsw3] at h; exact h
                        | .ok p5 =>
                            rw [hsw3] at h
                            dsimp only at h ⊢
                            match hb : bytes[p5]? with
                            | none => rw [hb] at h; exact h
                            | some b =>
                                rw [hb] at h
                                dsimp only at h ⊢
                                by_cases h1 : b = 125
                                · rw [if_pos h1] at h ⊢
                                  exact h
                                · rw [if_neg h1] at h ⊢
                                  by_cases h2 : b = 44
                                  · rw [if_pos h2] at h ⊢
                                    match hsw4 : skipWs bytes (p5 + 1) with
                                    | .error e => rw [hsw4] at h; exact h
                                    | .ok p6 =>
                                        rw [hsw4] at h
                                        dsimp only at h ⊢
                                        exact objLoop_mono bytes fuel start
                                          (hmInsert acc cs v1) p6 r h hr
                                  · rw [if_neg h2] at h ⊢
                                    exact h
              · rw [if_neg hc] at h ⊢
                exact h

end

/-! ### Fuel sufficiency: with fuel beyond three times the remaining bytes,
the embedding never runs out of fuel -/

mutual

theorem parseBytes_sufficient :
    ∀ (bytes : List Nat) (fuel pos : Nat), 3 * (bytes.length - pos) + 2 ≤ fuel →
      parseBytes bytes fuel pos ≠ .fuelOut
  | bytes, 0, pos, hf => by omega
  | bytes, fuel + 1, pos, hf => by
      intro h
      simp only [parseBytes] at h
      match hsw : skipWs bytes pos with
      | .error e => rw [hsw] at h; exact RunOutcome.noConfusion h
      | .ok p =>
          rw [hsw] at h
          dsimp only at h
          have hle := skipWs_ok_le hsw
          have hlt := skipWs_ok_lt_len hsw
          match hb : bytes[p]? with
          | none => rw [hb] at h; exact RunOutcome.noConfusion h
          | some b =>
              rw [hb] at h
              dsimp only at h
              split at h
              · exact parseObject_sufficient bytes fuel p (by omega) h
              · split at h
                · exact parseArray_sufficient bytes fuel p (by omega) h
                · split at h
                  · exact parseString_not_fuelOut h
                  · split at h
                    · exact parseNumber_not_fuelOut h
                    · split at h
                      · exact parseBool_not_fuelOut h
                      · split at h
                        · exact parseNull_not_fuelOut h
                        · exact RunOutcome.noConfusion h

theorem parseArray_sufficient :
    ∀ (bytes : List Nat) (fuel pos : Nat), 3 * (bytes.length - pos) + 1 ≤ fuel →
      parseArray bytes fuel pos ≠ .fuelOut
  | bytes, 0, pos, hf => by omega
  | bytes, fuel + 1, pos, hf => by
      intro h
      simp only [parseArray] at h
      match hsw : skipWs bytes (pos + 1) with
      | .error e => rw [hsw] at h; exact RunOutcome.noConfusion h
      | .ok p2 =>
          rw [hsw] at h
          dsimp only at h
          have hle := skipWs_ok_le hsw
          have hlt := skipWs_ok_lt_len hsw
          match hb : bytes[p2]? with
          | none => rw [hb] at h; exact RunOutcome.noConfusion h
          | some b =>
              rw [hb] at h
              dsimp only at h
              split at h
              · exact RunOutcome.noConfusion h
              · exact arrayLoop_sufficient bytes fuel pos [] p2 (by omega) h

theorem arrayLoop_sufficient :
    ∀ (bytes : List Nat) (fuel start : Nat) (acc : List Value) (pos : Nat),
      3 * (bytes.length - pos) + 3 ≤ fuel → arrayLoop bytes fuel start acc pos ≠ .fuelOut
  | bytes, 0, start, acc, pos, hf => by omega
  | bytes, fuel + 1, start, acc, pos, hf => by
      intro h
      simp only [arrayLoop] at h
      match hv : parseBytes bytes fuel pos with
      | .fuelOut => exact parseBytes_sufficient bytes fuel pos (by omega) hv
      | .err e => rw [hv] at h; exact RunOutcome.noConfusion h
      | .panic => rw [hv] at h; exact RunOutcome.noConfusion h
      | .ok (v1, p1) =>
          rw [hv] at h
          dsimp only at h
          have hp1 := parseBytes_progress bytes fuel pos v1 p1 hv
          match hsw : skipWs bytes p1 with
          | .error e => rw [hsw] at h; exact RunOutcome.noConfusion h
          | .ok p2 =>
              rw [hsw] at h
              dsimp only at h
              have hle := skipWs_ok_le hsw
              have hlt := skipWs_ok_lt_len hsw
              match hb : bytes[p2]? with
              | none => rw [hb] at h; exact RunOutcome.noConfusion h
              | some b =>
                  rw [hb] at h
                  dsimp only at h
                  split at h
                  · exact RunOutcome.noConfusion h
                  · split at h
                    · match hsw2 : skipWs bytes (p2 + 1) with
                      | .error e => rw [hsw2] at h; exact RunOutcome.noConfusion h
                      | .ok p3 =>
                          rw [hsw2] at h
                          dsimp only at h
                          have hle2 := skipWs_ok_le hsw2
                          have hlt2 := skipWs_ok_lt_len hsw2
                          exact arrayLoop_sufficient bytes fuel start (acc ++ [v1]) p3
                            (by omega) h
                    · exact RunOutcome.noConfusion h

theorem parseObject_sufficient :
    ∀ (bytes : List Nat) (fuel pos : Nat), 3 * (bytes.length - pos) + 1 ≤ fuel →
      parseObject bytes fuel pos ≠ .fuelOut
  | bytes, 0, pos, hf => by omega
  | bytes, fuel + 1, pos, hf => by
      intro h
      simp only [parseObject] at h
      match hsw : skipWs bytes (pos + 1) with
      | .error e => rw [hsw] at h; exact RunOutcome.noConfusion h
      | .ok p2 =>
          rw [hsw] at h
          dsimp only at h
          have hle := skipWs_ok_le hsw
          have hlt := skipWs_ok_lt_len hsw
          match hb : bytes[p2]? with
          | none => rw [hb] at h; exact RunOutcome.noConfusion h
          | some b =>
              rw [hb] at h
              dsimp only at h
              split at h
              · exact RunOutcome.noConfusion h
              · exact objLoop_sufficient bytes fuel pos [] p2 (by omega) h

theorem objLoop_sufficient :
    ∀ (bytes : List Nat) (fuel start : Nat) (acc : List (List Nat × Value)) (pos : Nat),
      3 * (bytes.length - pos) + 3 ≤ fuel → objLoop bytes fuel start acc pos ≠ .fuelOut
  | bytes, 0, start, acc, pos, hf => by omega
  | bytes, fuel + 1, start, acc, pos, hf => by
      intro h
      simp only [objLoop] at h
      match hk : parseString bytes pos with
      | .fuelOut => exact parseString_not_fuelOut hk
      | .err e => rw [hk] at h; exact RunOutcome.noConfusion h
      | .panic => rw [hk] at h; exact RunOutcome.noConfusion h
      | .ok (kv, p1) =>
          rw [hk] at h
          obtain ⟨cs, hkv, hkp1, hkp2, -⟩ := parseString_ok_facts hk
          subst hkv
          dsimp only at h
          match hsw : skipWs bytes p1 with
          | .error e => rw [hsw] at h; exact RunOutcome.noConfusion h
          | .ok p2 =>
              rw [hsw] at h
              dsimp only at h
              have hle := skipWs_ok_le hsw
              have hlt := skipWs_ok_lt_len hsw
              split at h
              · match hsw2 : skipWs bytes (p2 + 1) with
                | .error e => rw [hsw2] at h; exact RunOutcome.noConfusion h
                | .ok p3 =>
                    rw [hsw2] at h
                    dsimp only at h
                    have hle2 := skipWs_ok_le hsw2
                    have hlt2 := skipWs_ok_lt_len hsw2
                    match hv : parseBytes bytes fuel p3 with
                    | .fuelOut => exact parseBytes_sufficient bytes fuel p3 (by omega) hv
                    | .err e => rw [hv] at h; exact RunOutcome.noConfusion h
                    | .panic => rw [hv] at h; exact RunOutcome.noConfusion h
                    | .ok (v1, p4) =>
                        rw [hv] at h
                        dsimp only at h
                        have hp4 := parseBytes_progress bytes fuel p3 v1 p4 hv
                        match hsw3 : skipWs bytes p4 with
                        | .error e => rw [hsw3] at h; exact RunOutcome.noConfusion h
                        | .ok p5 =>
                            rw [hsw3] at h
                            dsimp only at h
                            have hle3 := skipWs_ok_le hsw3
                            have hlt3 := skipWs_ok_lt_len hsw3
                            match hb : bytes[p5]? with
                            | none => rw [hb] at h; exact RunOutcome.noConfusion h
                            | some b =>
                                rw [hb] at h
                                dsimp only at h
                                split at h
                                · exact RunOutcome.noConfusion h
                                · split at h
                                  · match hsw4 : skipWs bytes (p5 + 1) with
                                    | .error e =>
                                        rw [hsw4] at h; exact RunOutcome.noConfusion h
                                    | .ok p6 =>
                                        rw [hsw4] at h
                                        dsimp only at h
                                        have hle4 := skipWs_ok_le hsw4
                                        have hlt4 := skipWs_ok_lt_len hsw4
                                        exact objLoop_sufficient bytes fuel start
                                          (hmInsert acc cs v1) p6 (by omega) h
                                  · exact RunOutcome.noConfusion h
              · exact RunOutcome.noConfusion h

end

theorem parseTop_sufficient :
    ∀ (bytes : List Nat) (fuel pos : Nat) (acc : List Value),
      3 * (bytes.length - pos) + 3 ≤ fuel → parseTop bytes fuel pos acc ≠ .fuelOut
  | bytes, 0, pos, acc, hf => by omega
  | bytes, fuel + 1, pos, acc, hf => by
      intro h
      simp only [parseTop] at h
      split at h
      · match hsw : skipWs bytes pos with
        | .error e => rw [hsw] at h; exact RunOutcome.noConfusion h
        | .ok p =>
            rw [hsw] at h
            dsimp only at h
            have hle := skipWs_ok_le hsw
            match hv : parseBytes bytes fuel p with
            | .fuelOut => exact parseBytes_sufficient bytes fuel p (by omega) hv
            | .err e => rw [hv] at h; exact RunOutcome.noConfusion h
            | .panic => rw [hv] at h; exact RunOutcome.noConfusion h
            | .ok (v, p2) =>
                rw [hv] at h
                dsimp only at h
                have hp2 := parseBytes_progress bytes fuel p v p2 hv
                exact parseTop_sufficient bytes fuel p2 (acc ++ [v]) (by omega) h
      · exact RunOutcome.noConfusion h

theorem parseTop_mono :
    ∀ (bytes : List Nat) (fuel pos : Nat) (acc : List Value) (r : RunOutcome (List Value)),
      parseTop bytes fuel pos acc = r → r ≠ .fuelOut → parseTop bytes (fuel + 1) pos acc = r
  | bytes, 0, pos, acc, r, h, hr => by
      simp only [parseTop] at h
      exact absurd h.symm hr
  | bytes, fuel + 1, pos, acc, r, h, hr => by
      simp only [parseTop] at h ⊢
      split at h
      · rw [if_pos (by assumption)]
        match hsw : skipWs bytes pos with
        | .error e => rw [hsw] at h; exact h
        | .ok p =>
            rw [hsw] at h
            dsimp only at h ⊢
            match hv : parseBytes bytes fuel p with
            | .fuelOut => rw [hv] at h; exact absurd h.symm hr
            | .err e =>
                rw [hv] at h
                rw [parseBytes_mono bytes fuel p _ hv (by simp)]
                exact h
            | .panic =>
                rw [hv] at h
                rw [parseBytes_mono bytes fuel p _ hv (by simp)]
                exact h
            | .ok (v, p2) =>
                rw [hv] at h
                rw [parseBytes_mono bytes fuel p _ hv (by simp)]
                dsimp only at h ⊢
                exact parseTop_mono bytes fuel p2 (acc ++ [v]) r h hr
      · rw [if_neg (by assumption)]
        exact h

theorem parseBytes_mono_le {bytes : List Nat} {fuel fuel' pos : Nat}
    {r : RunOutcome (Value × Nat)} (hle : fuel ≤ fuel') (h : parseBytes bytes fuel pos = r)
    (hr : r ≠ .fuelOut) : parseBytes bytes fuel' pos = r := by
  induction fuel', hle using Nat.le_induction with
  | base => exact h
  | succ n hn ih => exact parseBytes_mono bytes n pos r ih hr

theorem parseArray_mono_le {bytes : List Nat} {fuel fuel' pos : Nat}
    {r : RunOutcome (Value × Nat)} (hle : fuel ≤ fuel') (h : parseArray bytes fuel pos = r)
    (hr : r ≠ .fuelOut) : parseArray bytes fuel' pos = r := by
  induction fuel', hle using Nat.le_induction with
  | base => exact h
  | succ n hn ih => exact parseArray_mono bytes n pos r ih hr

theorem arrayLoop_mono_le {bytes : List Nat} {fuel fuel' start : Nat} {acc : List Value}
    {pos : Nat} {r : RunOutcome (Value × Nat)} (hle : fuel ≤ fuel')
    (h : arrayLoop bytes fuel start acc pos = r) (hr : r ≠ .fuelOut) :
    arrayLoop bytes fuel' start acc pos = r := by
  induction fuel', hle using Nat.le_induction with
  | base => exact h
  | succ n hn ih => exact arrayLoop_mono bytes n start acc pos r ih hr

theorem parseObject_mono_le {bytes : List Nat} {fuel fuel' pos : Nat}
    {r : RunOutcome (Value × Nat)} (hle : fuel ≤ fuel') (h : parseObject bytes fuel pos = r)
    (hr : r ≠ .fuelOut) : parseObject bytes fuel' pos = r := by
  induction fuel', hle using Nat.le_induction with
  | base => exact h
  | succ n hn ih => exact parseObject_mono bytes n pos r ih hr

theorem objLoop_mono_le {bytes : List Nat} {fuel fuel' start : Nat}
    {acc : List (List Nat × Value)} {pos : Nat} {r : RunOutcome (Value × Nat)}
    (hle : fuel ≤ fuel') (h : objLoop bytes fuel start acc pos = r) (hr : r ≠ .fuelOut) :
    objLoop bytes fuel' start acc pos = r := by
  induction fuel', hle using Nat.le_induction with
  | base => exact h
  | succ n hn ih => exact objLoop_mono bytes n start acc pos r ih hr

theorem parseTop_mono_le {bytes : List Nat} {fuel fuel' pos : Nat} {acc : List Value}
    {r : RunOutcome (List Value)} (hle : fuel ≤ fuel') (h : parseTop bytes fuel pos acc = r)
    (hr : r ≠ .fuelOut) : parseTop bytes fuel' pos acc = r := by
  induction fuel', hle using Nat.le_induction with
  | base => exact h
  | succ n hn ih => exact parseTop_mono bytes n pos acc r ih hr

theorem parse_str_not_fuelOut (bytes : List Nat) : parse_str bytes ≠ .fuelOut := by
  unfold parse_str
  match ht : parseTop bytes (parseFuel bytes) 0 [] with
  | .ok vs => simp
  | .err e => simp
  | .panic => simp
  | .fuelOut =>
      exact absurd ht (parseTop_sufficient bytes (parseFuel bytes) 0 []
        (by unfold parseFuel; omega))

theorem hmInsert_forall {P : Value → Prop} :
    ∀ (acc : List (List Nat × Value)) (k : List Nat) (v : Value),
      (∀ kv ∈ acc, P kv.2) → P v → ∀ kv ∈ hmInsert acc k v, P kv.2
  | [], k, v, hacc, hv, kv, hkv => by
      simp only [hmInsert, List.mem_singleton] at hkv
      subst hkv
      exact hv
  | (k', v') :: rest, k, v, hacc, hv, kv, hkv => by
      simp only [hmInsert] at hkv
      split at hkv
      · rcases List.mem_cons.1 hkv with rfl | hm
        · exact hv
        · exact hacc kv (List.mem_cons_of_mem _ hm)
      · rcases List.mem_cons.1 hkv with rfl | hm
        · exact hacc _ (List.mem_cons_self _ _)
        · exact hmInsert_forall rest k v (fun x hx => hacc x (List.mem_cons_of_mem _ hx)) hv
            _ hm

/-! ### Spans: every node built by a successful parse satisfies the span
invariant, and its span ends exactly at the position reached -/

mutual

theorem parseBytes_spans :
    ∀ (bytes : List Nat) (fuel pos : Nat) (v : Value) (p' : Nat),
      parseBytes bytes fuel pos = .ok (v, p') →
        SpansOk bytes v ∧ v.loc.stop = p' ∧ skipWs bytes pos = .ok v.loc.start
  | bytes, 0, pos, v, p', h => by simp [parseBytes] at h
  | bytes, fuel + 1, pos, v, p', h => by
      simp only [parseBytes] at h
      match hsw : skipWs bytes pos with
      | .error e => rw [hsw] at h; exact RunOutcome.noConfusion h
      | .ok p =>
          rw [hsw] at h
          dsimp only at h
          match hb : bytes[p]? with
          | none => rw [hb] at h; exact RunOutcome.noConfusion h
          | some b =>
              rw [hb] at h
              dsimp only at h
              split at h
              · rename_i hb123
                obtain ⟨hs, hloc⟩ := parseObject_spans bytes fuel p v p'
                  (by rw [hb, hb123]) h
                exact ⟨hs, by rw [hloc], by rw [hloc]⟩
              · split at h
                · rename_i _ hb91
                  obtain ⟨hs, hloc⟩ := parseArray_spans bytes fuel p v p'
                    (by rw [hb, hb91]) h
                  exact ⟨hs, by rw [hloc], by rw [hloc]⟩
                · split at h
                  · rename_i _ _ hb34
                    obtain ⟨cs, hv, h2, h3, h4, h5, h6⟩ := parseString_ok_facts h
                    subst hv
                    refine ⟨SpansOk.string (by rw [hb, hb34]) h5 h2 h3 h4 h6,
                      by simp [Value.loc], by simp [Value.loc]⟩
                  · split at h
                    · obtain ⟨hp', hrun, hlen, n, hv, -⟩ := parseNumber_ok_facts h
                      subst hv
                      refine ⟨SpansOk.number ?_ (by omega) (by omega) ?_,
                        by simp [Value.loc], by simp [Value.loc]⟩
                      · intro i h1 h2
                        exact @numRun_all_in bytes p i h1 (by omega)
                      · match hc : bytes[p + numRun bytes p]? with
                        | none =>
                            left
                            rw [List.getElem?_eq_none_iff] at hc
                            omega
                        | some c =>
                            right
                            exact ⟨c, by rw [← hp'] at hc; exact hc, numRun_max hc⟩
                    · split at h
                      · rcases parseBool_ok_facts h with ⟨hv, hp', -⟩ | ⟨hv, hp', -⟩ <;>
                          subst hv <;> subst hp' <;>
                          exact ⟨SpansOk.bool, by simp [Value.loc],
                            by simp [Value.loc]⟩
                      · split at h
                        · obtain ⟨hv, hp', -, -⟩ := parseNull_ok_facts h
                          subst hv
                          subst hp'
                          exact ⟨SpansOk.null, by simp [Value.loc],
                            by simp [Value.loc]⟩
                        · exact RunOutcome.noConfusion h

theorem parseArray_spans :
    ∀ (bytes : List Nat) (fuel pos : Nat) (v : Value) (p' : Nat),
      bytes[pos]? = some 91 → parseArray bytes fuel pos = .ok (v, p') →
        SpansOk bytes v ∧ v.loc = ⟨pos, p'⟩
  | bytes, 0, pos, v, p', hb0, h => by simp [parseArray] at h
  | bytes, fuel + 1, pos, v, p', hb0, h => by
      simp only [parseArray] at h
      match hsw : skipWs bytes (pos + 1) with
      | .error e => rw [hsw] at h; exact RunOutcome.noConfusion h
      | .ok p2 =>
          rw [hsw] at h
          dsimp only at h
          have hle := skipWs_ok_le hsw
          have hlt := skipWs_ok_lt_len hsw
          match hb : bytes[p2]? with
          | none => rw [hb] at h; exact RunOutcome.noConfusion h
          | some b =>
              rw [hb] at h
              dsimp only at h
              split at h
              · cases h
                rename_i hb93
                subst hb93
                refine ⟨SpansOk.array hb0 ?_ (by omega) (by omega) (by simp), rfl⟩
                rw [show p2 + 1 - 1 = p2 from by omega]
                exact hb
              · exact arrayLoop_spans bytes fuel pos [] p2 v p' hb0 (by omega) (by simp) h

theorem arrayLoop_spans :
    ∀ (bytes : List Nat) (fuel start : Nat) (acc : List Value) (pos : Nat) (v : Value)
      (p' : Nat),
      bytes[start]? = some 91 → start < pos → (∀ x ∈ acc, SpansOk bytes x) →
      arrayLoop bytes fuel start acc pos = .ok (v, p') →
        SpansOk bytes v ∧ v.loc = ⟨start, p'⟩
  | bytes, 0, start, acc, pos, v, p', hb0, hsp, hacc, h => by simp [arrayLoop] at h
  | bytes, fuel + 1, start, acc, pos, v, p', hb0, hsp, hacc, h => by
      simp only [arrayLoop] at h
      match hv : parseBytes bytes fuel pos with
      | .fuelOut => rw [hv] at h; exact RunOutcome.noConfusion h
      | .err e => rw [hv] at h; exact RunOutcome.noConfusion h
      | .panic => rw [hv] at h; exact RunOutcome.noConfusion h
      | .ok (v1, p1) =>
          rw [hv] at h
          dsimp only at h
          have hp1 := parseBytes_progress bytes fuel pos v1 p1 hv
          obtain ⟨hs1, -, -⟩ := parseBytes_spans bytes fuel pos v1 p1 hv
          have hacc2 : ∀ x ∈ acc ++ [v1], SpansOk bytes x := by
            intro x hx
            rcases List.mem_append.1 hx with hx | hx
            · exact hacc x hx
            · rw [List.mem_singleton.1 hx]; exact hs1
          match hsw : skipWs bytes p1 with
          | .error e => rw [hsw] at h; exact RunOutcome.noConfusion h
          | .ok p2 =>
              rw [hsw] at h
              dsimp only at h
              have hle := skipWs_ok_le hsw
              have hlt := skipWs_ok_lt_len hsw
              match hb : bytes[p2]? with
              | none => rw [hb] at h; exact RunOutcome.noConfusion h
              | some b =>
                  rw [hb] at h
                  dsimp only at h
                  split at h
                  · cases h
                    rename_i hb93
                    subst hb93
                    refine ⟨SpansOk.array hb0 ?_ (by omega) (by omega) hacc2, rfl⟩
                    rw [show p2 + 1 - 1 = p2 from by omega]
                    exact hb
                  · split at h
                    · match hsw2 : skipWs bytes (p2 + 1) with
                      | .error e => rw [hsw2] at h; exact RunOutcome.noConfusion h
                      | .ok p3 =>
                          rw [hsw2] at h
                          dsimp only at h
                          have hle2 := skipWs_ok_le hsw2
                          exact arrayLoop_spans bytes fuel start (acc ++ [v1]) p3 v p' hb0
                            (by omega) hacc2 h
                    · exact RunOutcome.noConfusion h

theorem parseObject_spans :
    ∀ (bytes : List Nat) (fuel pos : Nat) (v : Value) (p' : Nat),
      bytes[pos]? = some 123 → parseObject bytes fuel pos = .ok (v, p') →
        SpansOk bytes v ∧ v.loc = ⟨pos, p'⟩
  | bytes, 0, pos, v, p', hb0, h => by simp [parseObject] at h
  | bytes, fuel + 1, pos, v, p', hb0, h => by
      simp only [parseObject] at h
      match hsw : skipWs bytes (pos + 1) with
      | .error e => rw [hsw] at h; exact RunOutcome.noConfusion h
      | .ok p2 =>
          rw [hsw] at h
          dsimp only at h
          have hle := skipWs_ok_le hsw
          have hlt := skipWs_ok_lt_len hsw
          match hb : bytes[p2]? with
          | none => rw [hb] at h; exact RunOutcome.noConfusion h
          | some b =>
              rw [hb] at h
              dsimp only at h
              split at h
              · cases h
                rename_i hb125
                subst hb125
                refine ⟨SpansOk.object hb0 ?_ (by omega) (by omega) (by simp), rfl⟩
                rw [show p2 + 1 - 1 = p2 from by omega]
                exact hb
              · exact objLoop_spans bytes fuel pos [] p2 v p' hb0 (by omega) (by simp) h

theorem objLoop_spans :
    ∀ (bytes : List Nat) (fuel start : Nat) (acc : List (List Nat × Value)) (pos : Nat)
      (v : Value) (p' : Nat),
      bytes[start]? = some 123 → start < pos → (∀ kv ∈ acc, SpansOk bytes kv.2) →
      objLoop bytes fuel start acc pos = .ok (v, p') →
        SpansOk bytes v ∧ v.loc = ⟨start, p'⟩
  | bytes, 0, start, acc, pos, v, p', hb0, hsp, hacc, h => by simp [objLoop] at h
  | bytes, fuel + 1, start, acc, pos, v, p', hb0, hsp, hacc, h => by
      simp only [objLoop] at h
      match hk : parseString bytes pos with
      | .fuelOut => exact absurd hk parseString_not_fuelOut
      | .err e => rw [hk] at h; exact RunOutcome.noConfusion h
      | .panic => rw [hk] at h; exact RunOutcome.noConfusion h
      | .ok (kv, p1) =>
          rw [hk] at h
          obtain ⟨cs, hkv, hkp1, hkp2, -⟩ := parseString_ok_facts hk
          subst hkv
          dsimp only at h
          match hsw : skipWs bytes p1 with
          | .error e => rw [hsw] at h; exact RunOutcome.noConfusion h
          | .ok p2 =>
              rw [hsw] at h
              dsimp only at h
              have hle := skipWs_ok_le hsw
              have hlt := skipWs_ok_lt_len hsw
              split at h
              · match hsw2 : skipWs bytes (p2 + 1) with
                | .error e => rw [hsw2] at h; exact RunOutcome.noConfusion h
                | .ok p3 =>
                    rw [hsw2] at h
                    dsimp only at h
                    have hle2 := skipWs_ok_le hsw2
                    match hv : parseBytes bytes fuel p3 with
                    | .fuelOut => rw [hv] at h; exact RunOutcome.noConfusion h
                    | .err e => rw [hv] at h; exact RunOutcome.noConfusion h
                    | .panic => rw [hv] at h; exact RunOutcome.noConfusion h
                    | .ok (v1, p4) =>
                        rw [hv] at h
                        dsimp only at h
                        have hp4 := parseBytes_progress bytes fuel p3 v1 p4 hv
                        obtain ⟨hs1, -, -⟩ := parseBytes_spans bytes fuel p3 v1 p4 hv
                        have hacc2 : ∀ x ∈ hmInsert acc cs v1, SpansOk bytes x.2 :=
                          hmInsert_forall acc cs v1 hacc hs1
                        match hsw3 : skipWs bytes p4 with
                        | .error e => rw [hsw3] at h; exact RunOutcome.noConfusion h
                        | .ok p5 =>
                            rw [hsw3] at h
                            dsimp only at h
                            have hle3 := skipWs_ok_le hsw3
                            have hlt3 := skipWs_ok_lt_len hsw3
                            match hb : bytes[p5]? with
                            | none => rw [hb] at h; exact RunOutcome.noConfusion h
                            | some b =>
                                rw [hb] at h
                                dsimp only at h
                                split at h
                                · cases h
                                  rename_i hb125
                                  subst hb125
                                  refine ⟨SpansOk.object hb0 ?_ (by omega) (by omega)
                                    hacc2, rfl⟩
                                  rw [show p5 + 1 - 1 = p5 from by omega]
                                  exact hb
                                · split at h
                                  · match hsw4 : skipWs bytes (p5 + 1) with
                                    | .error e =>
                                        rw [hsw4] at h; exact RunOutcome.noConfusion h
                                    | .ok p6 =>
                                        rw [hsw4] at h
                                        dsimp only at h
                                        have hle4 := skipWs_ok_le hsw4
                                        exact objLoop_spans bytes fuel start
                                          (hmInsert acc cs v1) p6 v p' hb0 (by omega)
                                          hacc2 h
                                  · exact RunOutcome.noConfusion h
              · exact RunOutcome.noConfusion h

end

/-! ### Number strings: the spelled-out shapes parse as intended -/

theorem isDigitB_mem_numchars {b : Nat} (h : isDigitB b = true) : b ∈ JSON_NUMBER_CHARS := by
  unfold isDigitB at h
  simp only [decide_eq_true_eq] at h
  obtain ⟨h1, h2⟩ := h
  unfold JSON_NUMBER_CHARS
  interval_cases b <;> simp

theorem splitSign_other {b : Nat} {r : List Nat} (h45 : b ≠ 45) (h43 : b ≠ 43) :
    splitSign (b :: r) = (false, b :: r) := by
  unfold splitSign
  split
  · rename_i heq
    cases heq
    exact absurd rfl h45
  · rename_i heq
    cases heq
    exact absurd rfl h43
  · rfl

theorem splitSign_digit {b : Nat} {r : List Nat} (h : isDigitB b = true) :
    splitSign (b :: r) = (false, b :: r) := by
  unfold isDigitB at h
  simp only [decide_eq_true_eq] at h
  exact splitSign_other (by omega) (by omega)

theorem takeDigits_all {s : List Nat} (hs : ∀ b ∈ s, isDigitB b = true) :
    takeDigits s = (s, []) := by
  induction s with
  | nil => rfl
  | cons a r ih =>
      have ha := hs a (by simp)
      have := ih (fun x hx => hs x (by simp [hx]))
      simp [takeDigits, ha, this]

theorem takeDigits_stop {s : List Nat} (hs : ∀ b ∈ s, isDigitB b = true) {c : Nat}
    (hc : isDigitB c = false) (rest : List Nat) :
    takeDigits (s ++ c :: rest) = (s, c :: rest) := by
  induction s with
  | nil => simp [takeDigits, hc]
  | cons a r ih =>
      have ha := hs a (by simp)
      have := ih (fun x hx => hs x (by simp [hx]))
      simp [takeDigits, ha, this]

theorem not_digit_46 : isDigitB 46 = false := by decide
theorem not_digit_101 : isDigitB 101 = false := by decide
theorem not_digit_45 : isDigitB 45 = false := by decide

theorem all_digits_mem {ds : List Nat} (h : ∀ b ∈ ds, isDigitB b = true) :
    ds.all isDigitB = true := by
  rw [List.all_eq_true]
  exact h

theorem splitSign_signed {n : Bool} {d : Nat} {t : List Nat} (hd : isDigitB d = true) :
    splitSign ((if n then [45] else []) ++ (d :: t)) = (n, d :: t) := by
  cases n
  · simpa using splitSign_digit hd
  · simp [splitSign]

theorem expPart_eval_pos {m : Rat} {ds : List Nat} (hne : ds ≠ [])
    (hd : ∀ b ∈ ds, isDigitB b = true) :
    expPart m ds = some (m * (10 : Rat) ^ digitsVal ds) := by
  match ds, hne with
  | d :: ds', _ =>
      unfold expPart
      rw [splitSign_digit (hd d (by simp))]
      simp [takeDigits_all hd]

theorem expPart_eval_neg {m : Rat} {ds : List Nat} (hne : ds ≠ [])
    (hd : ∀ b ∈ ds, isDigitB b = true) :
    expPart m (45 :: ds) = some (m / (10 : Rat) ^ digitsVal ds) := by
  unfold expPart
  rw [show splitSign (45 :: ds) = (true, ds) from rfl]
  simp [takeDigits_all hd, hne]

theorem expPart_eval {m : Rat} {es : Bool} {ds : List Nat} (hne : ds ≠ [])
    (hd : ∀ b ∈ ds, isDigitB b = true) :
    expPart m ((if es then [45] else []) ++ ds) =
      some (if es then m / (10 : Rat) ^ digitsVal ds else m * (10 : Rat) ^ digitsVal ds) := by
  cases es
  · simpa using expPart_eval_pos hne hd
  · simpa using expPart_eval_neg hne hd

theorem parseI64_has_nondigit {s : List Nat} {n : Bool} {body : List Nat} {c : Nat}
    (hsplit : splitSign s = (n, body)) (hc : c ∈ body) (hcd : isDigitB c = false) :
    parseI64 s = none := by
  unfold parseI64
  rw [hsplit]
  dsimp only
  rw [if_neg]
  rintro ⟨-, hall⟩
  rw [List.all_eq_true] at hall
  rw [hall c hc] at hcd
  exact Bool.noConfusion hcd

theorem renderNum_parse {r : NumRec} (hwf : WfNum r) :
    (∃ i : Int, parseI64 (renderNum r) = some i ∧ (i : Rat) = numVal r) ∨
      (parseI64 (renderNum r) = none ∧ parseF64 (renderNum r) = some (numVal r)) := by
  obtain ⟨⟨hne, hdig⟩, hlead, hfr, hexp⟩ := hwf
  match hip : r.ip with
  | [] => exact absurd hip hne
  | d :: ip' =>
  have hd : isDigitB d = true := hdig d (by rw [hip]; simp)
  have hdig' : ∀ b ∈ d :: ip', isDigitB b = true := by rw [← hip]; exact hdig
  match hfrc : r.frac with
  | none =>
    match hexpc : r.exp with
    | none =>
        have hrender : renderNum r = (if r.neg then [45] else []) ++ (d :: ip') := by
          simp [renderNum, hfrc, hexpc, hip]
        have hsplit : splitSign (renderNum r) = (r.neg, d :: ip') := by
          rw [hrender]; exact splitSign_signed hd
        have hi64 : parseI64 (renderNum r) =
            if -(2 ^ 63) ≤ (if r.neg then -(digitsVal (d :: ip') : Int)
                  else (digitsVal (d :: ip') : Int)) ∧
                (if r.neg then -(digitsVal (d :: ip') : Int)
                  else (digitsVal (d :: ip') : Int)) ≤ 2 ^ 63 - 1
              then some (if r.neg then -(digitsVal (d :: ip') : Int)
                else (digitsVal (d :: ip') : Int))
              else none := by
          unfold parseI64
          rw [hsplit]
          dsimp only
          rw [if_pos ⟨by simp, all_digits_mem hdig'⟩]
        by_cases hrange : -(2 ^ 63) ≤ (if r.neg then -(digitsVal (d :: ip') : Int)
              else (digitsVal (d :: ip') : Int)) ∧
            (if r.neg then -(digitsVal (d :: ip') : Int)
              else (digitsVal (d :: ip') : Int)) ≤ 2 ^ 63 - 1
        · left
          refine ⟨_, by rw [hi64, if_pos hrange], ?_⟩
          cases hn : r.neg <;> simp [numVal, hfrc, hexpc, hip, hn]
        · right
          refine ⟨by rw [hi64, if_neg hrange], ?_⟩
          unfold parseF64
          rw [hsplit]
          dsimp only
          rw [takeDigits_all hdig']
          dsimp only
          rw [if_neg (by simp)]
          congr 1
          cases hn : r.neg <;> simp [numVal, hfrc, hexpc, hip, hn]
    | some (es, ds) =>
        have hds := hexp es ds hexpc
        have hrender : renderNum r =
            (if r.neg then [45] else []) ++
              ((d :: ip') ++ 101 :: ((if es then [45] else []) ++ ds)) := by
          simp [renderNum, hfrc, hexpc, hip]
        have hsplit : splitSign (renderNum r) =
            (r.neg, (d :: ip') ++ 101 :: ((if es then [45] else []) ++ ds)) := by
          rw [hrender]
          rw [show ((d :: ip') ++ 101 :: ((if es then [45] else []) ++ ds) : List Nat) =
            d :: (ip' ++ 101 :: ((if es then [45] else []) ++ ds)) from by simp]
          rw [show (d :: (ip' ++ 101 :: ((if es then [45] else []) ++ ds)) : List Nat) =
            d :: ip' ++ 101 :: ((if es then [45] else []) ++ ds) from by simp]
          exact splitSign_signed hd
        right
        refine ⟨parseI64_has_nondigit hsplit (by simp) not_digit_101, ?_⟩
        unfold parseF64
        rw [hsplit]
        dsimp only
        rw [takeDigits_stop hdig' not_digit_101]
        dsimp only
        rw [if_neg (by simp)]
        rw [expPart_eval hds.1 hds.2]
        congr 1
        cases hs : es <;> cases hn : r.neg <;>
          simp [numVal, hfrc, hexpc, hip, hn, hs]
  | some fr =>
    have hfrd := hfr fr hfrc
    match hexpc : r.exp with
    | none =>
        have hrender : renderNum r =
            (if r.neg then [45] else []) ++ ((d :: ip') ++ 46 :: fr) := by
          simp [renderNum, hfrc, hexpc, hip]
        have hsplit : splitSign (renderNum r) = (r.neg, (d :: ip') ++ 46 :: fr) := by
          rw [hrender]
          rw [show ((d :: ip') ++ 46 :: fr : List Nat) = d :: (ip' ++ 46 :: fr)
            from by simp]
          rw [show (d :: (ip' ++ 46 :: fr) : List Nat) = d :: ip' ++ 46 :: fr from by simp]
          exact splitSign_signed hd
        right
        refine ⟨parseI64_has_nondigit hsplit (by simp) not_digit_46, ?_⟩
        unfold parseF64
        rw [hsplit]
        dsimp only
        rw [takeDigits_stop hdig' not_digit_46]
        dsimp only
        rw [takeDigits_all hfrd.2]
        dsimp only
        rw [if_neg (by simp)]
        congr 1
        cases hn : r.neg <;> simp [numVal, hfrc, hexpc, hip, hn]
    | some (es, ds) =>
        have hds := hexp es ds hexpc
        have hrender : renderNum r =
            (if r.neg then [45] else []) ++
              ((d :: ip') ++ 46 :: (fr ++ 101 :: ((if es then [45] else []) ++ ds))) := by
          simp [renderNum, hfrc, hexpc, hip]
        have hsplit : splitSign (renderNum r) =
            (r.neg, (d :: ip') ++ 46 :: (fr ++ 101 :: ((if es then [45] else []) ++ ds))) := by
          rw [hrender]
          rw [show ((d :: ip') ++ 46 :: (fr ++ 101 :: ((if es then [45] else []) ++ ds))
              : List Nat) =
            d :: (ip' ++ 46 :: (fr ++ 101 :: ((if es then [45] else []) ++ ds)))
              from by simp]
          rw [show (d :: (ip' ++ 46 :: (fr ++ 101 :: ((if es then [45] else []) ++ ds)))
              : List Nat) =
            d :: ip' ++ 46 :: (fr ++ 101 :: ((if es then [45] else []) ++ ds))
              from by simp]
          exact splitSign_signed hd
        right
        refine ⟨parseI64_has_nondigit hsplit (by simp) not_digit_46, ?_⟩
        unfold parseF64
        rw [hsplit]
        dsimp only
        rw [takeDigits_stop hdig' not_digit_46]
        dsimp only
        rw [takeDigits_stop hfrd.2 not_digit_101]
        dsimp only
        rw [expPart_eval hds.1 hds.2]
        cases hs : es <;> cases hn : r.neg <;>
          simp [numVal, hfrc, hexpc, hip, hn, hs]

/-! ### Split lemmas: evaluating the scanning helpers at a position given an
explicit decomposition of the buffer -/

theorem skipWs_split {bytes pre w : List Nat} {b : Nat} {rest : List Nat} {n : Nat}
    (hn : n = pre.length) (hsplit : bytes = pre ++ (w ++ b :: rest)) (hw : IsWs w)
    (hb : b ∉ JSON_WHITESPACE_CHARS) :
    skipWs bytes n = .ok (n + w.length) := by
  subst hn hsplit
  unfold skipWs
  rw [List.drop_left]
  exact skipWsGo_ws_append hw hb pre.length

theorem getByte_split {bytes pre : List Nat} {b : Nat} {rest : List Nat} {n : Nat}
    (hn : n = pre.length) (hsplit : bytes = pre ++ b :: rest) : bytes[n]? = some b := by
  subst hn hsplit
  rw [getElem?_append_head]
  simp

theorem slice_split {bytes pre mid rest : List Nat} {n m : Nat} (hn : n = pre.length)
    (hm : m = mid.length) (hsplit : bytes = pre ++ (mid ++ rest)) :
    sliceBytes bytes n (n + m) = mid := by
  subst hn hm hsplit
  exact sliceBytes_append_exact

theorem quoteScan_split {bytes pre cs rest : List Nat} {n : Nat} (hn : n = pre.length)
    (hsplit : bytes = pre ++ (cs ++ JSON_QUOTE :: rest)) (hcs : ∀ b ∈ cs, b ≠ JSON_QUOTE) :
    quoteScan bytes n = some cs.length := by
  subst hn hsplit
  unfold quoteScan
  rw [List.drop_left]
  exact quoteScanGo_append hcs rest

theorem numRun_split {bytes pre s : List Nat} {c : Nat} {rest : List Nat} {n : Nat}
    (hn : n = pre.length) (hsplit : bytes = pre ++ (s ++ c :: rest))
    (hs : ∀ b ∈ s, b ∈ JSON_NUMBER_CHARS) (hc : c ∉ JSON_NUMBER_CHARS) :
    numRun bytes n = s.length := by
  subst hn hsplit
  unfold numRun
  rw [List.drop_left]
  exact numRunGo_stop hs hc rest

theorem numRun_split_end {bytes pre s : List Nat} {n : Nat} (hn : n = pre.length)
    (hsplit : bytes = pre ++ s) (hs : ∀ b ∈ s, b ∈ JSON_NUMBER_CHARS) :
    numRun bytes n = s.length := by
  subst hn hsplit
  unfold numRun
  rw [List.drop_left]
  exact numRunGo_all hs

/-! ### Byte-class facts and head shapes of rendered values -/

theorem ws_not_numchar {b : Nat} (h : b ∈ JSON_WHITESPACE_CHARS) : b ∉ JSON_NUMBER_CHARS := by
  fin_cases h <;> decide

theorem renderNum_all_numchars {r : NumRec} (hwf : WfNum r) :
    ∀ b ∈ renderNum r, b ∈ JSON_NUMBER_CHARS := by
  obtain ⟨⟨hne, hdig⟩, hlead, hfr, hexp⟩ := hwf
  intro b hb
  unfold renderNum at hb
  simp only [List.mem_append] at hb
  rcases hb with ((hb | hb) | hb) | hb
  · split at hb
    · rw [List.mem_singleton] at hb
      subst hb
      decide
    · cases hb
  · exact isDigitB_mem_numchars (hdig b hb)
  · match hfc : r.frac with
    | none => rw [hfc] at hb; cases hb
    | some fr =>
        rw [hfc] at hb
        rcases List.mem_cons.1 hb with rfl | hb
        · decide
        · exact isDigitB_mem_numchars ((hfr fr hfc).2 b hb)
  · match hec : r.exp with
    | none => rw [hec] at hb; cases hb
    | some (es, ds) =>
        rw [hec] at hb
        rcases List.mem_cons.1 hb with rfl | hb
        · decide
        · rcases List.mem_append.1 hb with hb | hb
          · split at hb
            · rw [List.mem_singleton] at hb
              subst hb
              decide
            · cases hb
          · exact isDigitB_mem_numchars ((hexp es ds hec).2 b hb)

theorem renderNum_head {r : NumRec} (hwf : WfNum r) :
    ∃ b t, renderNum r = b :: t ∧ (b = 45 ∨ (48 ≤ b ∧ b ≤ 57)) := by
  obtain ⟨⟨hne, hdig⟩, -, -, -⟩ := hwf
  match hrn : renderNum r with
  | [] =>
      exfalso
      unfold renderNum at hrn
      cases hn : r.neg <;> rw [hn] at hrn <;> simp at hrn
      exact hne hrn.1
  | b :: t =>
      refine ⟨b, t, rfl, ?_⟩
      have hh : (renderNum r).head? = some b := by rw [hrn]; rfl
      cases hn : r.neg
      · match hip : r.ip with
        | [] => exact absurd hip hne
        | d :: ip' =>
            have hd := hdig d (by rw [hip]; simp)
            unfold isDigitB at hd
            simp only [decide_eq_true_eq] at hd
            have hh2 : (renderNum r).head? = some d := by
              unfold renderNum
              rw [hn, hip]
              simp
            rw [hh] at hh2
            cases hh2
            exact .inr hd
      · have hh2 : (renderNum r).head? = some 45 := by
          unfold renderNum
          rw [hn]
          simp
        rw [hh] at hh2
        cases hh2
        exact .inl rfl

theorem Renders_head {v : JsonV} {core : List Nat} (h : Renders v core) :
    ∃ b t, core = b :: t ∧ b ∉ JSON_WHITESPACE_CHARS ∧ b ≠ 93 ∧ b ≠ 125 := by
  cases h with
  | null => exact ⟨110, _, rfl, by decide, by decide, by decide⟩
  | btrue => exact ⟨116, _, rfl, by decide, by decide, by decide⟩
  | bfalse => exact ⟨102, _, rfl, by decide, by decide, by decide⟩
  | num hwf =>
      obtain ⟨b, t, heq, hb⟩ := renderNum_head hwf
      refine ⟨b, t, heq, ?_, by omega, by omega⟩
      intro hmem
      fin_cases hmem <;> omega
  | str hcs => exact ⟨34, _, rfl, by decide, by decide, by decide⟩
  | arrNil hw => exact ⟨91, _, rfl, by decide, by decide, by decide⟩
  | arrCons hw he => exact ⟨91, _, rfl, by decide, by decide, by decide⟩
  | objNil hw => exact ⟨123, _, rfl, by decide, by decide, by decide⟩
  | objCons hw hp hk => exact ⟨123, _, rfl, by decide, by decide, by decide⟩

theorem ElemsR_head {vs : List JsonV} {s : List Nat} (h : ElemsR vs s) :
    ∃ b t, s = b :: t ∧ b ∉ JSON_WHITESPACE_CHARS ∧ b ≠ 93 ∧ b ≠ 125 := by
  cases h with
  | @last v core w hr hw =>
      obtain ⟨b, t, heq, h1, h2, h3⟩ := Renders_head hr
      exact ⟨b, t ++ w ++ [93], by rw [heq]; simp, h1, h2, h3⟩
  | @cons v core w1 w2 vs rest hr hw1 hw2 he =>
      obtain ⟨b, t, heq, h1, h2, h3⟩ := Renders_head hr
      exact ⟨b, t ++ w1 ++ 44 :: (w2 ++ rest), by rw [heq]; simp, h1, h2, h3⟩

theorem PairsR_head {ps : List (List Nat × JsonV)} {s : List Nat} (h : PairsR ps s) :
    ∃ t, s = 34 :: t := by
  cases h with
  | last hk hw1 hw2 hr hw3 => exact ⟨_, rfl⟩
  | cons hk hw1 hw2 hr hw3 hw4 hp => exact ⟨_, rfl⟩

theorem hmInsert_fresh :
    ∀ {acc : List (List Nat × Value)} {k : List Nat} {v : Value},
      (∀ e ∈ acc, e.1 ≠ k) → hmInsert acc k v = acc ++ [(k, v)]
  | [], k, v, hf => rfl
  | (k', v') :: rest, k, v, hf => by
      unfold hmInsert
      rw [if_neg (hf (k', v') (by simp))]
      rw [hmInsert_fresh (fun e he => hf e (List.mem_cons_of_mem _ he))]
      simp

/-! ### Dispatch: reducing `parse_bytes` to the chosen sub-parser -/

theorem parseBytes_to_parseObject {bytes : List Nat} {f pos p : Nat}
    (hsw : skipWs bytes pos = .ok p) (hb : bytes[p]? = some 123) :
    parseBytes bytes (f + 1) pos = parseObject bytes f p := by
  simp only [parseBytes]
  rw [hsw]
  dsimp only
  rw [hb]
  dsimp only
  rw [if_pos rfl]

theorem parseBytes_to_parseArray {bytes : List Nat} {f pos p : Nat}
    (hsw : skipWs bytes pos = .ok p) (hb : bytes[p]? = some 91) :
    parseBytes bytes (f + 1) pos = parseArray bytes f p := by
  simp only [parseBytes]
  rw [hsw]
  dsimp only
  rw [hb]
  dsimp only
  rw [if_neg (by decide), if_pos rfl]

theorem parseBytes_to_parseString {bytes : List Nat} {f pos p : Nat}
    (hsw : skipWs bytes pos = .ok p) (hb : bytes[p]? = some 34) :
    parseBytes bytes (f + 1) pos = parseString bytes p := by
  simp only [parseBytes]
  rw [hsw]
  dsimp only
  rw [hb]
  dsimp only
  rw [if_neg (by decide), if_neg (by decide), if_pos rfl]

theorem parseBytes_to_parseNumber {bytes : List Nat} {f pos p b : Nat}
    (hsw : skipWs bytes pos = .ok p) (hb : bytes[p]? = some b)
    (hd : b = 45 ∨ (48 ≤ b ∧ b ≤ 57)) :
    parseBytes bytes (f + 1) pos = parseNumber bytes p := by
  simp only [parseBytes]
  rw [hsw]
  dsimp only
  rw [hb]
  dsimp only
  rw [if_neg (by omega), if_neg (by omega), if_neg (by omega), if_pos hd]

theorem parseBytes_to_parseBool {bytes : List Nat} {f pos p b : Nat}
    (hsw : skipWs bytes pos = .ok p) (hb : bytes[p]? = some b) (hd : b = 116 ∨ b = 102) :
    parseBytes bytes (f + 1) pos = parseBool bytes p := by
  simp only [parseBytes]
  rw [hsw]
  dsimp only
  rw [hb]
  dsimp only
  rw [if_neg (by omega), if_neg (by omega), if_neg (by omega), if_neg (by omega), if_pos hd]

theorem parseBytes_to_parseNull {bytes : List Nat} {f pos p : Nat}
    (hsw : skipWs bytes pos = .ok p) (hb : bytes[p]? = some 110) :
    parseBytes bytes (f + 1) pos = parseNull bytes p := by
  simp only [parseBytes]
  rw [hsw]
  dsimp only
  rw [hb]
  dsimp only
  rw [if_neg (by decide), if_neg (by decide), if_neg (by decide), if_neg (by decide),
    if_neg (by decide), if_pos rfl]

theorem parseBytes_err_byte {bytes : List Nat} {f pos p b : Nat}
    (hsw : skipWs bytes pos = .ok p) (hb : bytes[p]? = some b) (h1 : b ≠ 123) (h2 : b ≠ 91)
    (h3 : b ≠ 34) (h4 : ¬(b = 45 ∨ (48 ≤ b ∧ b ≤ 57))) (h5 : ¬(b = 116 ∨ b = 102))
    (h6 : b ≠ 110) :
    parseBytes bytes (f + 1) pos = .err (syntaxErr p) := by
  simp only [parseBytes]
  rw [hsw]
  dsimp only
  rw [hb]
  dsimp only
  rw [if_neg h1, if_neg h2, if_neg h3, if_neg h4, if_neg h5, if_neg h6]

theorem skipWs_at_nonws {bytes pre : List Nat} {b : Nat} {rest : List Nat} {n : Nat}
    (hn : n = pre.length) (hsplit : bytes = pre ++ b :: rest)
    (hb : b ∉ JSON_WHITESPACE_CHARS) : skipWs bytes n = .ok n :=
  skipWs_nonws (getByte_split hn hsplit) hb

/-! ### Leaf completeness steps: each scalar spelling parses to its node -/

theorem parseBytes_step_null (f : Nat) (pre post : List Nat) :
    parseBytes (pre ++ ([110, 117, 108, 108] ++ post)) (f + 1) pre.length =
      .ok (.null ⟨pre.length, pre.length + 4⟩, pre.length + 4) := by
  rw [parseBytes_to_parseNull
    (skipWs_at_nonws rfl (show pre ++ ([110, 117, 108, 108] ++ post) =
      pre ++ 110 :: ([117, 108, 108] ++ post) from by simp) (by decide))
    (getByte_split rfl (show pre ++ ([110, 117, 108, 108] ++ post) =
      pre ++ 110 :: ([117, 108, 108] ++ post) from by simp))]
  unfold parseNull
  rw [if_pos (by simp [LEN_NULL])]
  rw [show pre.length + LEN_NULL = pre.length + 4 from rfl]
  rw [slice_split rfl (show (4 : Nat) = [110, 117, 108, 108].length from rfl)
    (show pre ++ ([110, 117, 108, 108] ++ post) =
      pre ++ ([110, 117, 108, 108] ++ post) from rfl)]
  rw [if_pos rfl]

theorem parseBytes_step_true (f : Nat) (pre post : List Nat) :
    parseBytes (pre ++ ([116, 114, 117, 101] ++ post)) (f + 1) pre.length =
      .ok (.bool true ⟨pre.length, pre.length + 4⟩, pre.length + 4) := by
  rw [parseBytes_to_parseBool
    (skipWs_at_nonws rfl (show pre ++ ([116, 114, 117, 101] ++ post) =
      pre ++ 116 :: ([114, 117, 101] ++ post) from by simp) (by decide))
    (getByte_split rfl (show pre ++ ([116, 114, 117, 101] ++ post) =
      pre ++ 116 :: ([114, 117, 101] ++ post) from by simp)) (.inl rfl)]
  unfold parseBool
  rw [if_pos (by simp [LEN_TRUE])]
  rw [show pre.length + LEN_TRUE = pre.length + 4 from rfl]
  rw [slice_split rfl (show (4 : Nat) = [116, 114, 117, 101].length from rfl)
    (show pre ++ ([116, 114, 117, 101] ++ post) =
      pre ++ ([116, 114, 117, 101] ++ post) from rfl)]
  rw [if_pos rfl]

theorem parseBytes_step_false (f : Nat) (pre post : List Nat) :
    parseBytes (pre ++ ([102, 97, 108, 115, 101] ++ post)) (f + 1) pre.length =
      .ok (.bool false ⟨pre.length, pre.length + 5⟩, pre.length + 5) := by
  rw [parseBytes_to_parseBool
    (skipWs_at_nonws rfl (show pre ++ ([102, 97, 108, 115, 101] ++ post) =
      pre ++ 102 :: ([97, 108, 115, 101] ++ post) from by simp) (by decide))
    (getByte_split rfl (show pre ++ ([102, 97, 108, 115, 101] ++ post) =
      pre ++ 102 :: ([97, 108, 115, 101] ++ post) from by simp)) (.inr rfl)]
  unfold parseBool
  rw [if_pos (by simp [LEN_TRUE])]
  rw [show pre.length + LEN_TRUE = pre.length + 4 from rfl]
  rw [slice_split rfl (show (4 : Nat) = [102, 97, 108, 115].length from rfl)
    (show pre ++ ([102, 97, 108, 115, 101] ++ post) =
      pre ++ ([102, 97, 108, 115] ++ (101 :: post)) from by simp)]
  rw [if_neg (by decide)]
  rw [if_pos (by simp [LEN_FALSE])]
  rw [show pre.length + LEN_FALSE = pre.length + 5 from rfl]
  rw [slice_split rfl (show (5 : Nat) = [102, 97, 108, 115, 101].length from rfl)
    (show pre ++ ([102, 97, 108, 115, 101] ++ post) =
      pre ++ ([102, 97, 108, 115, 101] ++ post) from rfl)]
  rw [if_pos rfl]

theorem parseBytes_step_str (f : Nat) (pre post cs : List Nat)
    (hcs : ∀ b ∈ cs, StrByteOk b) :
    parseBytes (pre ++ ((34 :: (cs ++ [34])) ++ post)) (f + 1) pre.length =
      .ok (.string cs ⟨pre.length, pre.length + (cs.length + 2)⟩,
        pre.length + (cs.length + 2)) := by
  rw [parseBytes_to_parseString
    (skipWs_at_nonws rfl (show pre ++ ((34 :: (cs ++ [34])) ++ post) =
      pre ++ 34 :: ((cs ++ [34]) ++ post) from by simp) (by decide))
    (getByte_split rfl (show pre ++ ((34 :: (cs ++ [34])) ++ post) =
      pre ++ 34 :: ((cs ++ [34]) ++ post) from by simp))]
  unfold parseString
  rw [quoteScan_split (show pre.length + 1 = (pre ++ [34]).length from by simp)
    (show pre ++ ((34 :: (cs ++ [34])) ++ post) =
      (pre ++ [34]) ++ (cs ++ JSON_QUOTE :: post) from by simp [JSON_QUOTE])
    (fun b hb => by have := (hcs b hb).2.2.1; simpa [JSON_QUOTE] using this)]
  dsimp only
  rw [slice_split (show pre.length + 1 = (pre ++ [34]).length from by simp) rfl
    (show pre ++ ((34 :: (cs ++ [34])) ++ post) =
      (pre ++ [34]) ++ (cs ++ (34 :: post)) from by simp)]
  rw [show pre.length + 1 + cs.length + 1 = pre.length + (cs.length + 2) from by omega]

theorem parseBytes_step_num (f : Nat) (pre post : List Nat) {r : NumRec} (hwf : WfNum r)
    (hguard : post = [] ∨ ∃ c t, post = c :: t ∧ c ∉ JSON_NUMBER_CHARS) :
    ∃ node, parseBytes (pre ++ (renderNum r ++ post)) (f + 1) pre.length =
        .ok (node, pre.length + (renderNum r).length) ∧
      Matches (.jnum (numVal r)) node := by
  obtain ⟨b0, t0, hhead, hb0⟩ := renderNum_head hwf
  have hrw : parseBytes (pre ++ (renderNum r ++ post)) (f + 1) pre.length =
      parseNumber (pre ++ (renderNum r ++ post)) pre.length := by
    refine parseBytes_to_parseNumber
      (skipWs_at_nonws rfl (show pre ++ (renderNum r ++ post) =
        pre ++ b0 :: (t0 ++ post) from by rw [hhead]; simp) ?_)
      (getByte_split rfl (show pre ++ (renderNum r ++ post) =
        pre ++ b0 :: (t0 ++ post) from by rw [hhead]; simp)) hb0
    intro hmem
    fin_cases hmem <;> omega
  rw [hrw]
  have hrun : numRun (pre ++ (renderNum r ++ post)) pre.length = (renderNum r).length := by
    rcases hguard with rfl | ⟨c, t, rfl, hc⟩
    · exact numRun_split_end rfl (by simp) (renderNum_all_numchars hwf)
    · exact numRun_split rfl (show pre ++ (renderNum r ++ c :: t) =
        pre ++ (renderNum r ++ c :: t) from rfl) (renderNum_all_numchars hwf) hc
  unfold parseNumber
  rw [hrun]
  rw [slice_split rfl rfl (show pre ++ (renderNum r ++ post) =
    pre ++ (renderNum r ++ post) from rfl)]
  rcases renderNum_parse hwf with ⟨i, hi, hiv⟩ | ⟨hi, hq⟩
  · rw [hi]
    exact ⟨_, rfl, Matches.int hiv⟩
  · rw [hi]
    dsimp only
    rw [hq]
    exact ⟨_, rfl, Matches.float rfl⟩

theorem ws_close_guard {w : List Nat} {c0 : Nat} {post : List Nat} (hw : IsWs w)
    (hc0 : c0 ∉ JSON_NUMBER_CHARS) :
    w ++ c0 :: post = [] ∨ ∃ c t, w ++ c0 :: post = c :: t ∧ c ∉ JSON_NUMBER_CHARS := by
  match w with
  | [] => exact .inr ⟨c0, post, rfl, hc0⟩
  | a :: w' =>
      exact .inr ⟨a, w' ++ c0 :: post, by simp, ws_not_numchar (hw a (by simp))⟩

theorem parseString_split {bytes pre k rest : List Nat} {n : Nat} (hn : n = pre.length)
    (hsplit : bytes = pre ++ 34 :: (k ++ 34 :: rest)) (hk : ∀ b ∈ k, b ≠ JSON_QUOTE) :
    parseString bytes n = .ok (.string k ⟨n, n + (k.length + 2)⟩, n + (k.length + 2)) := by
  subst hn hsplit
  unfold parseString
  rw [quoteScan_split (show pre.length + 1 = (pre ++ [34]).length from by simp)
    (show pre ++ 34 :: (k ++ 34 :: rest) = (pre ++ [34]) ++ (k ++ JSON_QUOTE :: rest)
      from by simp [JSON_QUOTE]) hk]
  dsimp only
  rw [slice_split (show pre.length + 1 = (pre ++ [34]).length from by simp) rfl
    (show pre ++ 34 :: (k ++ 34 :: rest) = (pre ++ [34]) ++ (k ++ (34 :: rest)) from by simp)]
  rw [show pre.length + 1 + k.length + 1 = pre.length + (k.length + 2) from by omega]

/-! ### Completeness: every spelling in the accepted fragment parses to a
matching node, consuming exactly its bytes -/

mutual

theorem renders_complete :
    ∀ (v : JsonV) (core : List Nat), Renders v core →
      ∀ (pre post : List Nat),
        post = [] ∨ (∃ c t, post = c :: t ∧ c ∉ JSON_NUMBER_CHARS) →
        ∃ fuel node,
          parseBytes (pre ++ (core ++ post)) (fuel + 1) pre.length =
              .ok (node, pre.length + core.length) ∧ Matches v node
  | _, _, .null, pre, post, _ => by
      refine ⟨0, .null ⟨pre.length, pre.length + 4⟩, ?_, Matches.null⟩
      simpa using parseBytes_step_null 0 pre post
  | _, _, .btrue, pre, post, _ => by
      refine ⟨0, .bool true ⟨pre.length, pre.length + 4⟩, ?_, Matches.bool⟩
      simpa using parseBytes_step_true 0 pre post
  | _, _, .bfalse, pre, post, _ => by
      refine ⟨0, .bool false ⟨pre.length, pre.length + 5⟩, ?_, Matches.bool⟩
      simpa using parseBytes_step_false 0 pre post
  | _, _, @Renders.num r hwf, pre, post, hg => by
      obtain ⟨node, h1, h2⟩ := parseBytes_step_num 0 pre post hwf hg
      exact ⟨0, node, h1, h2⟩
  | _, _, @Renders.str cs hcs, pre, post, _ => by
      refine ⟨0, .string cs ⟨pre.length, pre.length + (cs.length + 2)⟩, ?_, Matches.str⟩
      rw [show pre.length + (34 :: (cs ++ [34])).length = pre.length + (cs.length + 2) from by
        simp only [List.length_cons, List.length_append, List.length_nil] <;> omega]
      exact parseBytes_step_str 0 pre post cs hcs
  | _, _, @Renders.arrNil w hw, pre, post, _ => by
      refine ⟨0 + 1, .array [] ⟨pre.length, pre.length + (91 :: (w ++ [93])).length⟩, ?_,
        Matches.arr MatchesL.nil⟩
      rw [parseBytes_to_parseArray
        (skipWs_at_nonws rfl (show pre ++ ((91 :: (w ++ [93])) ++ post) =
          pre ++ 91 :: ((w ++ [93]) ++ post) from by simp) (by decide))
        (getByte_split rfl (show pre ++ ((91 :: (w ++ [93])) ++ post) =
          pre ++ 91 :: ((w ++ [93]) ++ post) from by simp))]
      simp only [parseArray]
      rw [skipWs_split (show pre.length + 1 = (pre ++ [91]).length from by simp)
        (show pre ++ ((91 :: (w ++ [93])) ++ post) =
          (pre ++ [91]) ++ (w ++ 93 :: post) from by simp) hw (by decide)]
      dsimp only
      rw [getByte_split (show pre.length + 1 + w.length = (pre ++ 91 :: w).length from by
          simp only [List.length_append, List.length_cons] <;> omega)
        (show pre ++ ((91 :: (w ++ [93])) ++ post) =
          (pre ++ 91 :: w) ++ 93 :: post from by simp)]
      dsimp only
      rw [if_pos rfl]
      rw [show pre.length + (91 :: (w ++ [93])).length = pre.length + 1 + w.length + 1 from by
        simp only [List.length_cons, List.length_append, List.length_nil] <;> omega]
  | _, _, @Renders.arrCons w v vs s hw he, pre, post, _ => by
      obtain ⟨b0, t0, hs0, hb0w, hb093, -⟩ := ElemsR_head he
      obtain ⟨f0, nodes, hloop, hml⟩ :=
        elems_complete _ _ he (pre ++ 91 :: w) post pre.length []
      refine ⟨f0 + 1 + 1, .array nodes ⟨pre.length, pre.length + (91 :: (w ++ s)).length⟩, ?_,
        Matches.arr hml⟩
      rw [parseBytes_to_parseArray
        (skipWs_at_nonws rfl (show pre ++ ((91 :: (w ++ s)) ++ post) =
          pre ++ 91 :: ((w ++ s) ++ post) from by simp) (by decide))
        (getByte_split rfl (show pre ++ ((91 :: (w ++ s)) ++ post) =
          pre ++ 91 :: ((w ++ s) ++ post) from by simp))]
      simp only [parseArray]
      rw [skipWs_split (show pre.length + 1 = (pre ++ [91]).length from by simp)
        (show pre ++ ((91 :: (w ++ s)) ++ post) =
          (pre ++ [91]) ++ (w ++ b0 :: (t0 ++ post)) from by rw [hs0]; simp) hw hb0w]
      dsimp only
      rw [getByte_split (show pre.length + 1 + w.length = (pre ++ 91 :: w).length from by
          simp only [List.length_append, List.length_cons] <;> omega)
        (show pre ++ ((91 :: (w ++ s)) ++ post) =
          (pre ++ 91 :: w) ++ b0 :: (t0 ++ post) from by rw [hs0]; simp)]
      dsimp only
      rw [if_neg hb093]
      rw [show (pre ++ 91 :: w) ++ (s ++ post) = pre ++ ((91 :: (w ++ s)) ++ post) from by simp,
        show (pre ++ 91 :: w).length = pre.length + 1 + w.length from by
          simp only [List.length_append, List.length_cons] <;> omega] at hloop
      simp only [List.nil_append] at hloop
      rw [show pre.length + (91 :: (w ++ s)).length = pre.length + 1 + w.length + s.length from by
        simp only [List.length_cons, List.length_append] <;> omega]
      exact hloop
  | _, _, @Renders.objNil w hw, pre, post, _ => by
      refine ⟨0 + 1, .object [] ⟨pre.length, pre.length + (123 :: (w ++ [125])).length⟩, ?_,
        Matches.obj MatchesP.nil⟩
      rw [parseBytes_to_parseObject
        (skipWs_at_nonws rfl (show pre ++ ((123 :: (w ++ [125])) ++ post) =
          pre ++ 123 :: ((w ++ [125]) ++ post) from by simp) (by decide))
        (getByte_split rfl (show pre ++ ((123 :: (w ++ [125])) ++ post) =
          pre ++ 123 :: ((w ++ [125]) ++ post) from by simp))]
      simp only [parseObject]
      rw [skipWs_split (show pre.length + 1 = (pre ++ [123]).length from by simp)
        (show pre ++ ((123 :: (w ++ [125])) ++ post) =
          (pre ++ [123]) ++ (w ++ 125 :: post) from by simp) hw (by decide)]
      dsimp only
      rw [getByte_split (show pre.length + 1 + w.length = (pre ++ 123 :: w).length from by
          simp only [List.length_append, List.length_cons] <;> omega)
        (show pre ++ ((123 :: (w ++ [125])) ++ post) =
          (pre ++ 123 :: w) ++ 125 :: post from by simp)]
      dsimp only
      rw [if_pos rfl]
      rw [show pre.length + (123 :: (w ++ [125])).length = pre.length + 1 + w.length + 1 from by
        simp only [List.length_cons, List.length_append, List.length_nil] <;> omega]
  | _, _, @Renders.objCons w k v ps s hw hp hk, pre, post, _ => by
      obtain ⟨t34, hs34⟩ := PairsR_head hp
      obtain ⟨f0, entries, hloop, hmp⟩ :=
        pairs_complete _ _ hp (pre ++ 123 :: w) post pre.length [] hk (by simp)
      refine ⟨f0 + 1 + 1, .object entries ⟨pre.length, pre.length + (123 :: (w ++ s)).length⟩, ?_,
        Matches.obj hmp⟩
      rw [parseBytes_to_parseObject
        (skipWs_at_nonws rfl (show pre ++ ((123 :: (w ++ s)) ++ post) =
          pre ++ 123 :: ((w ++ s) ++ post) from by simp) (by decide))
        (getByte_split rfl (show pre ++ ((123 :: (w ++ s)) ++ post) =
          pre ++ 123 :: ((w ++ s) ++ post) from by simp))]
      simp only [parseObject]
      rw [skipWs_split (show pre.length + 1 = (pre ++ [123]).length from by simp)
        (show pre ++ ((123 :: (w ++ s)) ++ post) =
          (pre ++ [123]) ++ (w ++ 34 :: (t34 ++ post)) from by rw [hs34]; simp) hw (by decide)]
      dsimp only
      rw [getByte_split (show pre.length + 1 + w.length = (pre ++ 123 :: w).length from by
          simp only [List.length_append, List.length_cons] <;> omega)
        (show pre ++ ((123 :: (w ++ s)) ++ post) =
          (pre ++ 123 :: w) ++ 34 :: (t34 ++ post) from by rw [hs34]; simp)]
      dsimp only
      rw [if_neg (by decide)]
      rw [show (pre ++ 123 :: w) ++ (s ++ post) = pre ++ ((123 :: (w ++ s)) ++ post) from by simp,
        show (pre ++ 123 :: w).length = pre.length + 1 + w.length from by
          simp only [List.length_append, List.length_cons] <;> omega] at hloop
      simp only [List.nil_append] at hloop
      rw [show pre.length + (123 :: (w ++ s)).length = pre.length + 1 + w.length + s.length from by
        simp only [List.length_cons, List.length_append] <;> omega]
      exact hloop

theorem elems_complete :
    ∀ (vs : List JsonV) (s : List Nat), ElemsR vs s →
      ∀ (pre post : List Nat) (start : Nat) (acc : List Value),
        ∃ fuel nodes,
          arrayLoop (pre ++ (s ++ post)) (fuel + 1) start acc pre.length =
              .ok (.array (acc ++ nodes) ⟨start, pre.length + s.length⟩,
                pre.length + s.length) ∧ MatchesL vs nodes
  | _, _, @ElemsR.last v core w hr hw, pre, post, start, acc => by
      obtain ⟨f1, node, hpb, hm⟩ :=
        renders_complete _ _ hr pre (w ++ 93 :: post) (ws_close_guard hw (by decide))
      refine ⟨f1 + 1, [node], ?_, MatchesL.cons hm MatchesL.nil⟩
      simp only [arrayLoop]
      rw [show pre ++ (core ++ w ++ [93] ++ post) =
        pre ++ (core ++ (w ++ 93 :: post)) from by simp]
      rw [hpb]
      dsimp only
      rw [skipWs_split (show pre.length + core.length = (pre ++ core).length from by
          simp only [List.length_append])
        (show pre ++ (core ++ (w ++ 93 :: post)) =
          (pre ++ core) ++ (w ++ 93 :: post) from by simp) hw (by decide)]
      dsimp only
      rw [getByte_split (show pre.length + core.length + w.length =
          (pre ++ (core ++ w)).length from by
          simp only [List.length_append] <;> omega)
        (show pre ++ (core ++ (w ++ 93 :: post)) =
          (pre ++ (core ++ w)) ++ 93 :: post from by simp)]
      dsimp only
      rw [if_pos rfl]
      have hl1 : pre.length + (core ++ w ++ [93]).length =
          pre.length + core.length + w.length + 1 := by
        simp only [List.length_append, List.length_cons, List.length_nil]
        omega
      rw [hl1]
  | _, _, @ElemsR.cons v core w1 w2 vs rest hr hw1 hw2 he, pre, post, start, acc => by
      obtain ⟨b0, t0, hr0, hb0w, -, -⟩ := ElemsR_head he
      obtain ⟨f1, node, hpb, hm⟩ := renders_complete _ _ hr pre
        (w1 ++ 44 :: (w2 ++ (rest ++ post))) (ws_close_guard hw1 (by decide))
      obtain ⟨f2, nodes, hloop, hml⟩ := elems_complete _ _ he
        (pre ++ (core ++ (w1 ++ 44 :: w2))) post start (acc ++ [node])
      refine ⟨max (f1 + 1) (f2 + 1), node :: nodes, ?_, MatchesL.cons hm hml⟩
      have hpbM : parseBytes (pre ++ (core ++ w1 ++ 44 :: (w2 ++ rest) ++ post))
          (max (f1 + 1) (f2 + 1)) pre.length = .ok (node, pre.length + core.length) := by
        refine parseBytes_mono_le (le_max_left _ _) ?_ (by simp)
        rw [show pre ++ (core ++ w1 ++ 44 :: (w2 ++ rest) ++ post) =
          pre ++ (core ++ (w1 ++ 44 :: (w2 ++ (rest ++ post)))) from by simp]
        exact hpb
      have hloopM := arrayLoop_mono_le (le_max_right (f1 + 1) (f2 + 1)) hloop (by simp)
      rw [show (pre ++ (core ++ (w1 ++ 44 :: w2))) ++ (rest ++ post) =
          pre ++ (core ++ w1 ++ 44 :: (w2 ++ rest) ++ post) from by simp,
        show (pre ++ (core ++ (w1 ++ 44 :: w2))).length =
          pre.length + core.length + w1.length + 1 + w2.length from by
          simp only [List.length_append, List.length_cons] <;> omega] at hloopM
      simp only [arrayLoop]
      rw [hpbM]
      dsimp only
      rw [skipWs_split (show pre.length + core.length = (pre ++ core).length from by
          simp only [List.length_append])
        (show pre ++ (core ++ w1 ++ 44 :: (w2 ++ rest) ++ post) =
          (pre ++ core) ++ (w1 ++ 44 :: (w2 ++ (rest ++ post))) from by simp) hw1 (by decide)]
      dsimp only
      rw [getByte_split (show pre.length + core.length + w1.length =
          (pre ++ (core ++ w1)).length from by
          simp only [List.length_append] <;> omega)
        (show pre ++ (core ++ w1 ++ 44 :: (w2 ++ rest) ++ post) =
          (pre ++ (core ++ w1)) ++ 44 :: (w2 ++ (rest ++ post)) from by simp)]
      dsimp only
      rw [if_neg (by decide), if_pos rfl]
      rw [skipWs_split (show pre.length + core.length + w1.length + 1 =
          (pre ++ (core ++ (w1 ++ [44]))).length from by
          simp only [List.length_append, List.length_cons, List.length_nil] <;> omega)
        (show pre ++ (core ++ w1 ++ 44 :: (w2 ++ rest) ++ post) =
          (pre ++ (core ++ (w1 ++ [44]))) ++ (w2 ++ b0 :: (t0 ++ post)) from by
          rw [hr0]; simp) hw2 hb0w]
      dsimp only
      rw [show pre.length + (core ++ w1 ++ 44 :: (w2 ++ rest)).length =
        pre.length + core.length + w1.length + 1 + w2.length + rest.length from by
        simp only [List.length_append, List.length_cons] <;> omega]
      rw [hloopM]
      simp

theorem pairs_complete :
    ∀ (ps : List (List Nat × JsonV)) (s : List Nat), PairsR ps s →
      ∀ (pre post : List Nat) (start : Nat) (acc : List (List Nat × Value)),
        (ps.map Prod.fst).Nodup →
        (∀ p ∈ ps, ∀ e ∈ acc, e.1 ≠ p.1) →
        ∃ fuel entries,
          objLoop (pre ++ (s ++ post)) (fuel + 1) start acc pre.length =
              .ok (.object (acc ++ entries) ⟨start, pre.length + s.length⟩,
                pre.length + s.length) ∧ MatchesP ps entries
  | _, _, @PairsR.last k w1 w2 v core w3 hk hw1 hw2 hr hw3, pre, post, start, acc, _,
      hfresh => by
      obtain ⟨b2, t2, hcr, hb2w, -, -⟩ := Renders_head hr
      obtain ⟨f1, node, hpb, hm⟩ := renders_complete _ _ hr
        (pre ++ 34 :: (k ++ 34 :: (w1 ++ 58 :: w2))) (w3 ++ 125 :: post)
        (ws_close_guard hw3 (by decide))
      refine ⟨f1 + 1, [(k, node)], ?_, MatchesP.cons hm MatchesP.nil⟩
      rw [show (pre ++ 34 :: (k ++ 34 :: (w1 ++ 58 :: w2))) ++ (core ++ (w3 ++ 125 :: post)) =
          pre ++ ((34 :: (k ++ [34] ++ w1 ++ 58 :: (w2 ++ core ++ w3 ++ [125]))) ++ post)
          from by simp,
        show (pre ++ 34 :: (k ++ 34 :: (w1 ++ 58 :: w2))).length =
          pre.length + (k.length + 2) + w1.length + 1 + w2.length from by
          simp only [List.length_append, List.length_cons] <;> omega] at hpb
      simp only [objLoop]
      rw [parseString_split rfl
        (show pre ++ ((34 :: (k ++ [34] ++ w1 ++ 58 :: (w2 ++ core ++ w3 ++ [125]))) ++ post) =
          pre ++ 34 :: (k ++ 34 :: (w1 ++ 58 :: (w2 ++ (core ++ (w3 ++ 125 :: post)))))
          from by simp)
        (fun b hb => by have := (hk b hb).2.2.1; simpa [JSON_QUOTE] using this)]
      dsimp only
      rw [skipWs_split (show pre.length + (k.length + 2) =
          (pre ++ 34 :: (k ++ [34])).length from by
          simp only [List.length_append, List.length_cons, List.length_nil] <;> omega)
        (show pre ++ ((34 :: (k ++ [34] ++ w1 ++ 58 :: (w2 ++ core ++ w3 ++ [125]))) ++ post) =
          (pre ++ 34 :: (k ++ [34])) ++ (w1 ++ 58 :: (w2 ++ (core ++ (w3 ++ 125 :: post))))
          from by simp) hw1 (by decide)]
      dsimp only
      rw [getByte_split (show pre.length + (k.length + 2) + w1.length =
          (pre ++ 34 :: (k ++ [34] ++ w1)).length from by
          simp only [List.length_append, List.length_cons, List.length_nil] <;> omega)
        (show pre ++ ((34 :: (k ++ [34] ++ w1 ++ 58 :: (w2 ++ core ++ w3 ++ [125]))) ++ post) =
          (pre ++ 34 :: (k ++ [34] ++ w1)) ++ 58 :: (w2 ++ (core ++ (w3 ++ 125 :: post)))
          from by simp)]
      rw [if_pos rfl]
      rw [skipWs_split (show pre.length + (k.length + 2) + w1.length + 1 =
          (pre ++ 34 :: (k ++ [34] ++ w1 ++ [58])).length from by
          simp only [List.length_append, List.length_cons, List.length_nil] <;> omega)
        (show pre ++ ((34 :: (k ++ [34] ++ w1 ++ 58 :: (w2 ++ core ++ w3 ++ [125]))) ++ post) =
          (pre ++ 34 :: (k ++ [34] ++ w1 ++ [58])) ++ (w2 ++ b2 :: (t2 ++ (w3 ++ 125 :: post)))
          from by rw [hcr]; simp) hw2 hb2w]
      dsimp only
      rw [hpb]
      dsimp only
      rw [skipWs_split
        (show pre.length + (k.length + 2) + w1.length + 1 + w2.length + core.length =
          (pre ++ 34 :: (k ++ [34] ++ w1 ++ 58 :: (w2 ++ core))).length from by
          simp only [List.length_append, List.length_cons, List.length_nil] <;> omega)
        (show pre ++ ((34 :: (k ++ [34] ++ w1 ++ 58 :: (w2 ++ core ++ w3 ++ [125]))) ++ post) =
          (pre ++ 34 :: (k ++ [34] ++ w1 ++ 58 :: (w2 ++ core))) ++ (w3 ++ 125 :: post)
          from by simp) hw3 (by decide)]
      dsimp only
      rw [getByte_split
        (show pre.length + (k.length + 2) + w1.length + 1 + w2.length + core.length + w3.length =
          (pre ++ 34 :: (k ++ [34] ++ w1 ++ 58 :: (w2 ++ (core ++ w3)))).length from by
          simp only [List.length_append, List.length_cons, List.length_nil] <;> omega)
        (show pre ++ ((34 :: (k ++ [34] ++ w1 ++ 58 :: (w2 ++ core ++ w3 ++ [125]))) ++ post) =
          (pre ++ 34 :: (k ++ [34] ++ w1 ++ 58 :: (w2 ++ (core ++ w3)))) ++ 125 :: post
          from by simp)]
      dsimp only
      rw [if_pos rfl]
      rw [hmInsert_fresh (fun e he => hfresh (k, v) (by simp) e he)]
      rw [show pre.length + (34 :: (k ++ [34] ++ w1 ++ 58 :: (w2 ++ core ++ w3 ++ [125]))).length =
        pre.length + (k.length + 2) + w1.length + 1 + w2.length + core.length + w3.length + 1
        from by
        simp only [List.length_append, List.length_cons, List.length_nil] <;> omega]
  | _, _, @PairsR.cons k w1 w2 v core w3 w4 ps rest hk hw1 hw2 hr hw3 hw4 hp, pre, post,
      start, acc, hnodup, hfresh => by
      obtain ⟨b2, t2, hcr, hb2w, -, -⟩ := Renders_head hr
      obtain ⟨t34, hph⟩ := PairsR_head hp
      obtain ⟨f1, node, hpb, hm⟩ := renders_complete _ _ hr
        (pre ++ 34 :: (k ++ 34 :: (w1 ++ 58 :: w2))) (w3 ++ 44 :: (w4 ++ (rest ++ post)))
        (ws_close_guard hw3 (by decide))
      have hnodup2 : (k :: ps.map Prod.fst).Nodup := by simpa using hnodup
      obtain ⟨f2, entries, hloop, hmp⟩ := pairs_complete _ _ hp
        (pre ++ 34 :: (k ++ 34 :: (w1 ++ 58 :: (w2 ++ (core ++ (w3 ++ 44 :: w4)))))) post
        start (acc ++ [(k, node)]) (List.nodup_cons.1 hnodup2).2
        (by
          intro p hpmem e he
          rcases List.mem_append.1 he with he | he
          · exact hfresh p (List.mem_cons_of_mem _ hpmem) e he
          · rcases List.mem_singleton.1 he with rfl
            intro heq
            have hmem : p.1 ∈ ps.map Prod.fst := List.mem_map_of_mem _ hpmem
            rw [← heq] at hmem
            exact (List.nodup_cons.1 hnodup2).1 (by simpa using hmem))
      refine ⟨max (f1 + 1) (f2 + 1), (k, node) :: entries, ?_, MatchesP.cons hm hmp⟩
      have hpbM : parseBytes
          (pre ++ ((34 :: (k ++ [34] ++ w1 ++ 58 :: (w2 ++ core ++ w3 ++ 44 :: (w4 ++ rest))))
            ++ post))
          (max (f1 + 1) (f2 + 1))
          (pre.length + (k.length + 2) + w1.length + 1 + w2.length) =
          .ok (node,
            pre.length + (k.length + 2) + w1.length + 1 + w2.length + core.length) := by
        refine parseBytes_mono_le (le_max_left _ _) ?_ (by simp)
        rw [show pre ++
            ((34 :: (k ++ [34] ++ w1 ++ 58 :: (w2 ++ core ++ w3 ++ 44 :: (w4 ++ rest))))
              ++ post) =
          (pre ++ 34 :: (k ++ 34 :: (w1 ++ 58 :: w2))) ++ (core ++ (w3 ++ 44 :: (w4 ++ (rest ++ post))))
          from by simp,
          show pre.length + (k.length + 2) + w1.length + 1 + w2.length =
            (pre ++ 34 :: (k ++ 34 :: (w1 ++ 58 :: w2))).length from by
            simp only [List.length_append, List.length_cons] <;> omega]
        exact hpb
      have hloopM := objLoop_mono_le (le_max_right (f1 + 1) (f2 + 1)) hloop (by simp)
      rw [show (pre ++ 34 :: (k ++ 34 :: (w1 ++ 58 :: (w2 ++ (core ++ (w3 ++ 44 :: w4)))))) ++
          (rest ++ post) =
          pre ++ ((34 :: (k ++ [34] ++ w1 ++ 58 :: (w2 ++ core ++ w3 ++ 44 :: (w4 ++ rest))))
            ++ post) from by simp,
        show (pre ++ 34 :: (k ++ 34 :: (w1 ++ 58 :: (w2 ++ (core ++ (w3 ++ 44 :: w4)))))).length =
          pre.length + (k.length + 2) + w1.length + 1 + w2.length + core.length + w3.length + 1
            + w4.length from by
          simp only [List.length_append, List.length_cons] <;> omega] at hloopM
      simp only [objLoop]
      rw [parseString_split rfl
        (show pre ++
            ((34 :: (k ++ [34] ++ w1 ++ 58 :: (w2 ++ core ++ w3 ++ 44 :: (w4 ++ rest)))) ++ post) =
          pre ++ 34 :: (k ++ 34 ::
            (w1 ++ 58 :: (w2 ++ (core ++ (w3 ++ 44 :: (w4 ++ (rest ++ post)))))))
          from by simp)
        (fun b hb => by have := (hk b hb).2.2.1; simpa [JSON_QUOTE] using this)]
      dsimp only
      rw [skipWs_split (show pre.length + (k.length + 2) =
          (pre ++ 34 :: (k ++ [34])).length from by
          simp only [List.length_append, List.length_cons, List.length_nil] <;> omega)
        (show pre ++
            ((34 :: (k ++ [34] ++ w1 ++ 58 :: (w2 ++ core ++ w3 ++ 44 :: (w4 ++ rest)))) ++ post) =
          (pre ++ 34 :: (k ++ [34])) ++
            (w1 ++ 58 :: (w2 ++ (core ++ (w3 ++ 44 :: (w4 ++ (rest ++ post))))))
          from by simp) hw1 (by decide)]
      dsimp only
      rw [getByte_split (show pre.length + (k.length + 2) + w1.length =
          (pre ++ 34 :: (k ++ [34] ++ w1)).length from by
          simp only [List.length_append, List.length_cons, List.length_nil] <;> omega)
        (show pre ++
            ((34 :: (k ++ [34] ++ w1 ++ 58 :: (w2 ++ core ++ w3 ++ 44 :: (w4 ++ rest)))) ++ post) =
          (pre ++ 34 :: (k ++ [34] ++ w1)) ++
            58 :: (w2 ++ (core ++ (w3 ++ 44 :: (w4 ++ (rest ++ post)))))
          from by simp)]
      rw [if_pos rfl]
      rw [skipWs_split (show pre.length + (k.length + 2) + w1.length + 1 =
          (pre ++ 34 :: (k ++ [34] ++ w1 ++ [58])).length from by
          simp only [List.length_append, List.length_cons, List.length_nil] <;> omega)
        (show pre ++
            ((34 :: (k ++ [34] ++ w1 ++ 58 :: (w2 ++ core ++ w3 ++ 44 :: (w4 ++ rest)))) ++ post) =
          (pre ++ 34 :: (k ++ [34] ++ w1 ++ [58])) ++
            (w2 ++ b2 :: (t2 ++ (w3 ++ 44 :: (w4 ++ (rest ++ post)))))
          from by rw [hcr]; simp) hw2 hb2w]
      dsimp only
      rw [hpbM]
      dsimp only
      rw [skipWs_split
        (show pre.length + (k.length + 2) + w1.length + 1 + w2.length + core.length =
          (pre ++ 34 :: (k ++ [34] ++ w1 ++ 58 :: (w2 ++ core))).length from by
          simp only [List.length_append, List.length_cons, List.length_nil] <;> omega)
        (show pre ++
            ((34 :: (k ++ [34] ++ w1 ++ 58 :: (w2 ++ core ++ w3 ++ 44 :: (w4 ++ rest)))) ++ post) =
          (pre ++ 34 :: (k ++ [34] ++ w1 ++ 58 :: (w2 ++ core))) ++
            (w3 ++ 44 :: (w4 ++ (rest ++ post)))
          from by simp) hw3 (by decide)]
      dsimp only
      rw [getByte_split
        (show pre.length + (k.length + 2) + w1.length + 1 + w2.length + core.length + w3.length =
          (pre ++ 34 :: (k ++ [34] ++ w1 ++ 58 :: (w2 ++ (core ++ w3)))).length from by
          simp only [List.length_append, List.length_cons, List.length_nil] <;> omega)
        (show pre ++
            ((34 :: (k ++ [34] ++ w1 ++ 58 :: (w2 ++ core ++ w3 ++ 44 :: (w4 ++ rest)))) ++ post) =
          (pre ++ 34 :: (k ++ [34] ++ w1 ++ 58 :: (w2 ++ (core ++ w3)))) ++
            44 :: (w4 ++ (rest ++ post))
          from by simp)]
      dsimp only
      rw [if_neg (by decide), if_pos rfl]
      rw [skipWs_split
        (show pre.length + (k.length + 2) + w1.length + 1 + w2.length + core.length
            + w3.length + 1 =
          (pre ++ 34 :: (k ++ [34] ++ w1 ++ 58 :: (w2 ++ (core ++ (w3 ++ [44]))))).length from by
          simp only [List.length_append, List.length_cons, List.length_nil] <;> omega)
        (show pre ++
            ((34 :: (k ++ [34] ++ w1 ++ 58 :: (w2 ++ core ++ w3 ++ 44 :: (w4 ++ rest)))) ++ post) =
          (pre ++ 34 :: (k ++ [34] ++ w1 ++ 58 :: (w2 ++ (core ++ (w3 ++ [44]))))) ++
            (w4 ++ 34 :: (t34 ++ post))
          from by rw [hph]; simp) hw4 (by decide)]
      dsimp only
      rw [hmInsert_fresh (fun e he => hfresh (k, v) (by simp) e he)]
      rw [show pre.length +
          (34 :: (k ++ [34] ++ w1 ++ 58 :: (w2 ++ core ++ w3 ++ 44 :: (w4 ++ rest)))).length =
        pre.length + (k.length + 2) + w1.length + 1 + w2.length + core.length + w3.length + 1
          + w4.length + rest.length from by
        simp only [List.length_append, List.length_cons, List.length_nil] <;> omega]
      rw [hloopM]
      simp

end

theorem ws_tail_all {A w : List Nat} (hw : IsWs w) :
    ∀ i, A.length ≤ i → i < (A ++ w).length →
      ∃ x, (A ++ w)[i]? = some x ∧ x ∈ JSON_WHITESPACE_CHARS := by
  intro i h1 h2
  have hi : i - A.length < w.length := by
    simp only [List.length_append] at h2
    omega
  refine ⟨w.get ⟨i - A.length, hi⟩, ?_, hw _ (w.get_mem _ hi)⟩
  rw [List.getElem?_append_right h1]
  exact List.getElem?_eq_getElem hi

theorem rendersText_parse {v : JsonV} {bs : List Nat} (h : RendersText v bs) :
    ∃ node, parse_str bs = .ok ⟨[node]⟩ ∧ Matches v node := by
  obtain ⟨w1, core, w2, hw1, hw2, hr, rfl⟩ := h
  obtain ⟨b0, t0, hc0, hb0w, -, -⟩ := Renders_head hr
  have hg : w2 = [] ∨ ∃ c t, w2 = c :: t ∧ c ∉ JSON_NUMBER_CHARS := by
    match w2 with
    | [] => exact .inl rfl
    | c :: t => exact .inr ⟨c, t, rfl, ws_not_numchar (hw2 c (by simp))⟩
  obtain ⟨f1, node, hpb, hm⟩ := renders_complete _ _ hr w1 w2 hg
  rw [show w1 ++ (core ++ w2) = w1 ++ core ++ w2 from by simp] at hpb
  refine ⟨node, ?_, hm⟩
  have hsw0 : skipWs (w1 ++ core ++ w2) 0 = .ok w1.length := by
    have := skipWs_split (show (0 : Nat) = ([] : List Nat).length from rfl)
      (show w1 ++ core ++ w2 = [] ++ (w1 ++ b0 :: (t0 ++ w2)) from by rw [hc0]; simp)
      hw1 hb0w
    simpa using this
  have hF : parseTop (w1 ++ core ++ w2) (f1 + 1 + 1) 0 [] = .ok [node] := by
    simp only [parseTop]
    rw [if_pos (show (0 : Nat) < (w1 ++ core ++ w2).length from by
      have hcl : 0 < core.length := by rw [hc0]; simp
      simp only [List.length_append]
      omega)]
    rw [hsw0]
    dsimp only
    rw [hpb]
    dsimp only
    simp only [List.nil_append, parseTop]
    rcases hg with rfl | ⟨c, t, hct, -⟩
    · rw [if_neg (show ¬(w1.length + core.length < (w1 ++ core ++ ([] : List Nat)).length)
        from by simp only [List.length_append, List.length_nil]; omega)]
    · subst hct
      rw [if_pos (show w1.length + core.length < (w1 ++ core ++ c :: t).length from by
        simp only [List.length_append, List.length_cons]
        omega)]
      rw [skipWs_all_ws (show w1.length + core.length ≤ (w1 ++ core ++ c :: t).length from by
          simp only [List.length_append, List.length_cons]
          omega)
        (fun i h1 h2 => ws_tail_all hw2 i
          (by simp only [List.length_append]; omega) h2)]
  have hne := parseTop_sufficient (w1 ++ core ++ w2) (parseFuel (w1 ++ core ++ w2)) 0 []
    (by unfold parseFuel; omega)
  have h1 := parseTop_mono_le
    (le_max_left (f1 + 1 + 1) (parseFuel (w1 ++ core ++ w2))) hF (by simp)
  unfold parse_str
  match hx : parseTop (w1 ++ core ++ w2) (parseFuel (w1 ++ core ++ w2)) 0 [] with
  | .fuelOut => exact absurd hx hne
  | .ok vs =>
      have h2 := parseTop_mono_le
        (le_max_right (f1 + 1 + 1) (parseFuel (w1 ++ core ++ w2))) hx (by simp)
      rw [h1] at h2
      dsimp only
      injection h2 with h3
      rw [← h3]
  | .err e =>
      have h2 := parseTop_mono_le
        (le_max_right (f1 + 1 + 1) (parseFuel (w1 ++ core ++ w2))) hx (by simp)
      rw [h1] at h2
      exact RunOutcome.noConfusion h2
  | .panic =>
      have h2 := parseTop_mono_le
        (le_max_right (f1 + 1 + 1) (parseFuel (w1 ++ core ++ w2))) hx (by simp)
      rw [h1] at h2
      exact RunOutcome.noConfusion h2

theorem utf8Encode_ascii : ∀ (cs : List Nat), (∀ b ∈ cs, b < 128) → utf8Encode cs = cs
  | [], _ => rfl
  | a :: t, h => by
      have ht := utf8Encode_ascii t (fun b hb => h b (by simp [hb]))
      unfold utf8Encode at ht ⊢
      simp only [List.map_cons, List.flatten_cons]
      rw [ht]
      unfold utf8EncodeChar
      rw [if_pos (h a (by simp))]
      simp

/-! ### Document-level helpers for the claims -/

theorem parseTop_spans :
    ∀ (bytes : List Nat) (fuel pos : Nat) (acc : List Value) (vs : List Value),
      parseTop bytes fuel pos acc = .ok vs → (∀ v ∈ acc, SpansOk bytes v) →
      ∀ v ∈ vs, SpansOk bytes v
  | bytes, 0, pos, acc, vs, h, hacc => by simp [parseTop] at h
  | bytes, fuel + 1, pos, acc, vs, h, hacc => by
      simp only [parseTop] at h
      split at h
      · match hsw : skipWs bytes pos with
        | .error e => rw [hsw] at h; cases h; exact hacc
        | .ok p =>
            rw [hsw] at h
            dsimp only at h
            match hv : parseBytes bytes fuel p with
            | .err e => rw [hv] at h; exact RunOutcome.noConfusion h
            | .panic => rw [hv] at h; exact RunOutcome.noConfusion h
            | .fuelOut => rw [hv] at h; exact RunOutcome.noConfusion h
            | .ok (v1, p2) =>
                rw [hv] at h
                dsimp only at h
                have hs := (parseBytes_spans bytes fuel p v1 p2 hv).1
                refine parseTop_spans bytes fuel p2 (acc ++ [v1]) vs h ?_
                intro v hv2
                rcases List.mem_append.1 hv2 with h2 | h2
                · exact hacc v h2
                · rcases List.mem_singleton.1 h2 with rfl
                  exact hs
      · cases h
        exact hacc

theorem parse_ws_only (w : List Nat) (hw : IsWs w) : parse_str w = .ok ⟨[]⟩ := by
  obtain ⟨F, hF⟩ : ∃ F, 3 * w.length + 3 = F + 1 := ⟨3 * w.length + 2, by omega⟩
  have htop : parseTop w (3 * w.length + 3) 0 [] = .ok [] := by
    rw [hF]
    simp only [parseTop]
    by_cases hw0 : 0 < w.length
    · rw [if_pos hw0]
      rw [@skipWs_all_ws w 0 (by omega) (fun i h1 h2 => @ws_tail_all [] w hw i (by simp) h2)]
    · rw [if_neg hw0]
  unfold parse_str
  rw [show parseFuel w = 3 * w.length + 3 from rfl, htop]

/-! ### The claims -/

/-- C1 (counterexample): the claim quantifies over every well-formed standard
JSON text without escape sequences, but the scanner's alphabet has only the
lowercase `e`, so the standard number literal `1E5` is split at the `E` and
the parse fails with a `Syntax` error at offset 1 instead of succeeding. -/
theorem C1_counterexample :
    WfJsonText [49, 69, 53] ∧ parse_str [49, 69, 53] = .err (syntaxErr 1) := by
  refine ⟨⟨[], [49, 69, 53], [], by simp [IsWs], by simp [IsWs], ?_, by simp⟩, rfl⟩
  refine WfJsonVal.num ⟨[], [49], [], [69, 53], .inl rfl, ⟨⟨by simp, by decide⟩, by decide⟩,
    .inl rfl, .inr ⟨69, [], [53], .inr rfl, .inl rfl, ⟨by simp, by decide⟩, rfl⟩, rfl⟩

/-- C1 (amended): for every text of the implementation-accepted fragment —
numbers over the scanner alphabet (lowercase `e`, no `+`), strings and keys
printable ASCII without quote or backslash, distinct keys — `parse_str`
succeeds with exactly one top-level node matching the literal. -/
theorem C1_amended {v : JsonV} {bs : List Nat} (h : RendersText v bs) :
    ∃ node, parse_str bs = .ok ⟨[node]⟩ ∧ Matches v node :=
  rendersText_parse h

/-- Witness for C1: the text `true` parses to a single matching node. -/
theorem C1_amended_witness :
    ∃ node, parse_str [116, 114, 117, 101] = .ok ⟨[node]⟩ ∧ Matches (.jbool true) node :=
  C1_amended ⟨[], [116, 114, 117, 101], [], by simp [IsWs], by simp [IsWs],
    Renders.btrue, by simp⟩

/-- C2 (code bug): on the three-byte input `nul` the dispatch reaches
`parse_null`, whose fixed-length slice `bytes[i..i+4]` reaches past the
buffer end, so the run panics instead of returning the claimed `Syntax`
error at the literal's start.  In-bounds mismatches (`numm`) do err at the
start, and the panic happens whenever fewer than `LEN_NULL` bytes remain. -/
theorem C2_bug :
    parse_str [110, 117, 108] = .panic ∧
    parse_str [110, 117, 109, 109] = .err (syntaxErr 0) ∧
    (∀ bytes pos, bytes.length < pos + LEN_NULL → parseNull bytes pos = .panic) :=
  ⟨rfl, rfl, fun _ _ h => parseNull_panic_iff.2 h⟩

/-- Witness for C2: the panic branch at a concrete short buffer. -/
theorem C2_bug_witness : parseNull [110, 117, 108] 0 = .panic :=
  C2_bug.2.2 [110, 117, 108] 0 (by decide)

/-- C3 (code bug): `parse_string` never checks the opening-quote byte, so the
object text `{a": 1}` — whose member key does not begin with a quote — parses
successfully to an object with the empty-string key (the `a` is swallowed as
if it were the opening quote) instead of failing with a `Syntax` error. -/
theorem C3_bug :
    parse_str [123, 97, 34, 58, 32, 49, 125] =
      .ok ⟨[.object [([], .number (.integer 1) ⟨5, 6⟩)] ⟨0, 7⟩]⟩ := rfl

/-- C4 (counterexample): the string payload is built with a byte-to-char copy
(`*x as u8 as char`), so each byte becomes a Unicode code point and the owned
`String` stores its UTF-8 encoding; for the non-ASCII content bytes
`[195, 169]` (`é`) the owned bytes `utf8Encode [195, 169]` differ from the
raw input bytes, refuting "copied verbatim ... for all byte values". -/
theorem C4_counterexample :
    parse_str [34, 195, 169, 34] = .ok ⟨[.string [195, 169] ⟨0, 4⟩]⟩ ∧
    utf8Encode [195, 169] ≠ [195, 169] := ⟨rfl, by decide⟩

/-- C4 (amended): every successfully parsed string node's code-point payload
is exactly the raw bytes between the quotes (no escape interpretation), and
the owned string's UTF-8 bytes coincide with those raw bytes whenever they
are all ASCII. -/
theorem C4_amended {bytes : List Nat} {pos p : Nat} {cs : List Nat} {l : Location}
    (h : parseString bytes pos = .ok (.string cs l, p)) :
    cs = sliceBytes bytes (pos + 1) (p - 1) ∧
    ((∀ b ∈ cs, b < 128) → utf8Encode cs = cs) := by
  obtain ⟨cs2, hv, -, -, hslice, -, -⟩ := parseString_ok_facts h
  injection hv with h1 h2
  subst h1
  exact ⟨hslice, fun hascii => utf8Encode_ascii _ hascii⟩

/-- Witness for C4: the string `"a"` with ASCII content. -/
theorem C4_amended_witness :
    [97] = sliceBytes [34, 97, 34] (0 + 1) (3 - 1) ∧ utf8Encode [97] = [97] :=
  ⟨(C4_amended (show parseString [34, 97, 34] 0 = .ok (.string [97] ⟨0, 3⟩, 3) from rfl)).1,
   (C4_amended (show parseString [34, 97, 34] 0 = .ok (.string [97] ⟨0, 3⟩, 3) from rfl)).2
     (by decide)⟩

/-- C5: the spec's number test set — `100` is `Integer(100)`, `100.1` is
`Float(100.1)`, `-100e3` is `Float(-100000)`, `1-2-3` is consumed whole by
the scanner and rejected with a `Number`-kind error at the scan's start —
and in general the scanner takes the maximal run of number-constituent
bytes, a successful parse tries the 64-bit integer first and the float
second, and a failed number parse errs with kind `Number` at the start. -/
theorem C5_numbers :
    parse_str [49, 48, 48] = .ok ⟨[.number (.integer 100) ⟨0, 3⟩]⟩ ∧
    parse_str [49, 48, 48, 46, 49] = .ok ⟨[.number (.float (1001 / 10 : Rat)) ⟨0, 5⟩]⟩ ∧
    parse_str [45, 49, 48, 48, 101, 51] = .ok ⟨[.number (.float (-100000 : Rat)) ⟨0, 6⟩]⟩ ∧
    parse_str [49, 45, 50, 45, 51] = .err (numberErr 0) ∧
    (∀ bytes pos i, pos ≤ i → i < pos + numRun bytes pos →
      ∃ c, bytes[i]? = some c ∧ c ∈ JSON_NUMBER_CHARS) ∧
    (∀ bytes pos c, bytes[pos + numRun bytes pos]? = some c → c ∉ JSON_NUMBER_CHARS) ∧
    (∀ bytes pos v p', parseNumber bytes pos = .ok (v, p') →
      p' = pos + numRun bytes pos ∧ ∃ n, v = .number n ⟨pos, p'⟩ ∧
        ((∃ i, parseI64 (sliceBytes bytes pos p') = some i ∧ n = .integer i) ∨
          (parseI64 (sliceBytes bytes pos p') = none ∧
            ∃ q, parseF64 (sliceBytes bytes pos p') = some q ∧ n = .float q))) ∧
    (∀ bytes pos e, parseNumber bytes pos = .err e → e = numberErr pos) := by
  refine ⟨rfl, by with_unfolding_all rfl, by with_unfolding_all rfl, rfl,
    fun bytes pos i h1 h2 => numRun_all_in i h1 h2,
    fun bytes pos c h => numRun_max h,
    fun bytes pos v p' h => ?_,
    fun bytes pos e h => parseNumber_err_facts h⟩
  obtain ⟨h1, -, -, n, h2, h3⟩ := parseNumber_ok_facts h
  exact ⟨h1, n, h2, h3⟩

/-- Witness for C5: the maximal-run conjunct at the one-byte input `:`,
whose byte is no number constituent. -/
theorem C5_numbers_witness : (58 : Nat) ∉ JSON_NUMBER_CHARS :=
  C5_numbers.2.2.2.2.2.1 [58] 0 58 rfl

/-- C6: in every successfully parsed document each node satisfies the span
invariant `SpansOk` — container and string spans are delimited half-open
byte ranges inside the buffer, string content is the verbatim slice between
the quotes, number spans are exactly the maximal scanner run — and parsing
`{}` yields one top-level `Object` node with empty mapping and span [0,2). -/
theorem C6_spans :
    (∀ bytes doc, parse_str bytes = .ok doc → ∀ v, v ∈ doc.values → SpansOk bytes v) ∧
    parse_str [123, 125] = .ok ⟨[.object [] ⟨0, 2⟩]⟩ := by
  refine ⟨?_, rfl⟩
  intro bytes doc h v hv
  unfold parse_str at h
  match ht : parseTop bytes (parseFuel bytes) 0 [] with
  | .ok vs =>
      rw [ht] at h
      dsimp only at h
      cases h
      exact parseTop_spans bytes (parseFuel bytes) 0 [] vs ht (by simp) v hv
  | .err e => rw [ht] at h; exact RunOutcome.noConfusion h
  | .panic => rw [ht] at h; exact RunOutcome.noConfusion h
  | .fuelOut => rw [ht] at h; exact RunOutcome.noConfusion h

/-- Witness for C6: the span invariant of the `{}` document's node. -/
theorem C6_spans_witness : SpansOk [123, 125] (.object [] ⟨0, 2⟩) :=
  C6_spans.1 [123, 125] ⟨[.object [] ⟨0, 2⟩]⟩ C6_spans.2 _ (List.mem_singleton.2 rfl)

/-- C7 (counterexample): the unterminated string `"ab` starts its construct
at offset 0, but the parser has already advanced past the opening quote when
it detects the missing terminator, and the `Syntax` error carries offset 1 —
so the error offset is not in every case the position before the partial
advance for the failing construct. -/
theorem C7_counterexample :
    parse_str [34, 97, 98] = .err (syntaxErr 1) ∧ syntaxErr 1 ≠ syntaxErr 0 :=
  ⟨rfl, by decide⟩

/-- C7 (amended): every parse error carries the byte offset at which the
failure was detected, with a per-construct convention: malformed literals
err at the literal's start, failed number parses at the scan's start, but an
unterminated string errs at its start position plus one (the already
advanced position past the opening quote). -/
theorem C7_amended :
    (∀ bytes pos e, parseNull bytes pos = .err e → e = syntaxErr pos) ∧
    (∀ bytes pos e, parseBool bytes pos = .err e → e = syntaxErr pos) ∧
    (∀ bytes pos e, parseNumber bytes pos = .err e → e = numberErr pos) ∧
    (∀ bytes pos e, parseString bytes pos = .err e → e = syntaxErr (pos + 1)) :=
  ⟨fun _ _ _ h => parseNull_err_facts h, fun _ _ _ h => parseBool_err_facts h,
   fun _ _ _ h => parseNumber_err_facts h, fun _ _ _ h => parseString_err_facts h⟩

/-- Witness for C7: the unterminated string `"ab` errs at 0 + 1. -/
theorem C7_amended_witness : syntaxErr 1 = syntaxErr (0 + 1) :=
  C7_amended.2.2.2 [34, 97, 98] 0 (syntaxErr 1) rfl

/-- C8: trailing commas are rejected with `Syntax` — the two test inputs
`[1,"2",]` and `{"a": 1, "b": , }` fail with a `Syntax`-kind error (at the
byte after the comma and whitespace), and in general whenever the value
dispatch lands on a closing `]` or `}` (as it does after a trailing comma)
it returns `Syntax` there. -/
theorem C8_trailing_comma :
    parse_str [91, 49, 44, 34, 50, 34, 44, 93] = .err (syntaxErr 7) ∧
    parse_str [123, 34, 97, 34, 58, 32, 49, 44, 32, 34, 98, 34, 58, 32, 44, 32, 125] =
      .err (syntaxErr 14) ∧
    (∀ bytes f pos p, skipWs bytes pos = .ok p →
      (bytes[p]? = some 93 ∨ bytes[p]? = some 125) →
      parseBytes bytes (f + 1) pos = .err (syntaxErr p)) := by
  refine ⟨rfl, rfl, fun bytes f pos p hsw hb => ?_⟩
  rcases hb with hb | hb
  · exact parseBytes_err_byte hsw hb (by decide) (by decide) (by decide) (by decide)
      (by decide) (by decide)
  · exact parseBytes_err_byte hsw hb (by decide) (by decide) (by decide) (by decide)
      (by decide) (by decide)

/-- Witness for C8: dispatch at a lone `]`. -/
theorem C8_trailing_comma_witness : parseBytes [93] (0 + 1) 0 = .err (syntaxErr 0) :=
  C8_trailing_comma.2.2 [93] 0 0 0 rfl (.inl rfl)

/-- C9: the top level accepts zero or more whitespace-separated root values
in source order — the empty text and every whitespace-only text yield an
empty top-level sequence with no error (trailing whitespace is normal
termination), and `[1,2,3] {"a":"b"} {}` parses to exactly three nodes in
source order. -/
theorem C9_toplevel :
    parse_str [] = .ok ⟨[]⟩ ∧
    (∀ w : List Nat, IsWs w → parse_str w = .ok ⟨[]⟩) ∧
    (∃ a o e : Value,
      parse_str [91, 49, 44, 50, 44, 51, 93, 32, 123, 34, 97, 34, 58, 34, 98, 34, 125,
          32, 123, 125] = .ok ⟨[a, o, e]⟩ ∧
        Matches (.jarr [.jnum 1, .jnum 2, .jnum 3]) a ∧
        Matches (.jobj [([97], .jstr [98])]) o ∧ Matches (.jobj []) e) := by
  refine ⟨rfl, fun w hw => parse_ws_only w hw,
    .array [.number (.integer 1) ⟨1, 2⟩, .number (.integer 2) ⟨3, 4⟩,
      .number (.integer 3) ⟨5, 6⟩] ⟨0, 7⟩,
    .object [([97], .string [98] ⟨13, 16⟩)] ⟨8, 17⟩,
    .object [] ⟨18, 20⟩, rfl,
    Matches.arr (MatchesL.cons (Matches.int (by norm_num))
      (MatchesL.cons (Matches.int (by norm_num))
        (MatchesL.cons (Matches.int (by norm_num)) MatchesL.nil))),
    Matches.obj (MatchesP.cons Matches.str MatchesP.nil),
    Matches.obj MatchesP.nil⟩

/-- Witness for C9: a whitespace-only text yields the empty document. -/
theorem C9_toplevel_witness : parse_str [32, 9] = .ok ⟨[]⟩ :=
  C9_toplevel.2.1 [32, 9] (by intro b hb; fin_cases hb <;> decide)

/-- C10: parsing always terminates on the embedded fuel — the fuel chosen by
`parse_str` can never run out — because every successful value parse
strictly advances the position within the buffer and whitespace skipping
never moves backwards and stops inside the buffer. -/
theorem C10_termination :
    (∀ bytes : List Nat, parse_str bytes ≠ .fuelOut) ∧
    (∀ bytes fuel pos v p', parseBytes bytes fuel pos = .ok (v, p') →
      pos < p' ∧ p' ≤ bytes.length) ∧
    (∀ bytes pos p, skipWs bytes pos = .ok p → pos ≤ p ∧ p < bytes.length) :=
  ⟨parse_str_not_fuelOut,
   fun bytes fuel pos v p' h => parseBytes_progress bytes fuel pos v p' h,
   fun _ _ _ h => ⟨skipWs_ok_le h, skipWs_ok_lt_len h⟩⟩

/-- Witness for C10: the literal `null` advances from 0 to 4 within the
4-byte buffer. -/
theorem C10_termination_witness : (0 : Nat) < 4 ∧ (4 : Nat) ≤ 4 :=
  C10_termination.2.1 [110, 117, 108, 108] 2 0 (.null ⟨0, 4⟩) 4 rfl
